import Mathlib

/-!
Verification of the overlap-add FFT convolution engine of
`tests/test_multiq_linear_phase.py` (the reference simulation of the
`LinearPhaseEQProcessor` "Multi-Q Linear Phase" mode).

The engine there (`process_overlap_add`) keeps four circular stores:

* `input_accum`  : `filter_length` samples, the input ring buffer;
* `output_accum` : `2 * fft_size` samples, the overlap-add accumulator;
* `latency_delay`: `2 * fft_size` samples, the latency-compensation delay line
  (its write cursor starts `filter_length / 2` ahead of its read cursor);

with `fft_size = 2 * filter_length` and `hop_size = filter_length / 2`.
Every `hop_size` pushed samples it assembles the most recent `filter_length`
samples, zero-pads to `fft_size`, convolves with the impulse response via
`rfft` / complex multiply / `irfft`, overlap-adds the `fft_size`-sample result
into the accumulator, then drains `hop_size` samples (each divided by `2.0`)
into the delay line and zeroes the drained region.

We embed the per-sample loop body faithfully over an arbitrary field `K`
(`ℚ` and `ℝ` are the instances used by the theorems; the Python floats are
modelled by exact field arithmetic).  The source's frequency-domain step
`irfft(rfft(x) * rfft(ir))` is embedded by its exact value over exact
arithmetic, the cyclic convolution of `x` with the time-domain impulse
response (the discrete convolution theorem); accordingly the engine model is
parametrised by the time-domain impulse response `g`, and the reference IR
builder `create_flat_ir_frequency_domain` is embedded by the time-domain
sequence it transforms (a unit impulse at `filter_length // 2`).
-/

set_option maxHeartbeats 1000000

namespace MultiQ

variable {K : Type*}

/-- Pointwise update of a buffer modelled as a total function `ℕ → K`:
the store `buf[i] = v` of the Python lists. -/
def upd (f : ℕ → K) (i : ℕ) (v : K) : ℕ → K := fun j => if j = i then v else f j

/-- The `fft_buffer` assembly (lines 78-82 of the source): entry `j < L` is
`input_accum[(input_write_pos - L + j + L) % L]`, which equals
`input_accum[(iwp + j) % L]`; entries `L ≤ j` are the implicit zero padding
up to the convolution FFT size. -/
def fftBuf (ia : ℕ → K) (iwp L : ℕ) [Zero K] : ℕ → K :=
  fun j => if j < L then ia ((iwp + j) % L) else 0

/-- Cyclic convolution over block size `F`.  Over exact arithmetic this is
the value of the source's `irfft(rfft(fft_buffer) * ir_complex)` (lines
85-92): a forward real FFT, a bin-wise complex multiply against the IR
spectrum, and a normalised inverse FFT compute exactly the cyclic
convolution of the two real time-domain sequences. -/
def cconv [Field K] (x g : ℕ → K) (F : ℕ) : ℕ → K :=
  fun j => ∑ t ∈ Finset.range F, x t * g ((j + F - t) % F)

/-- Time-domain sequence whose forward FFT `create_flat_ir_frequency_domain`
(lines 26-30) publishes: a single unit impulse at index `filter_length // 2`
in a `conv_fft_size`-long zero buffer. -/
def flatIRTime [Zero K] [One K] (L : ℕ) : ℕ → K :=
  fun t => if t = L / 2 then 1 else 0

/-- The mutable state of `process_overlap_add` between loop iterations. -/
structure OlaState (K : Type*) where
  inputAccum : ℕ → K
  outputAccum : ℕ → K
  latencyDelay : ℕ → K
  inputWritePos : ℕ
  outputReadPos : ℕ
  delayWritePos : ℕ
  delayReadPos : ℕ
  samplesInBuffer : ℕ
  /-- Instrumentation only: counts executions of the FFT-block branch
  (`if samples_in_buffer >= hop_size`).  Write-only; no processing decision
  reads it. -/
  blocksDone : ℕ

/-- Initial state (lines 55-64): all buffers zero, all cursors zero except
the delay write cursor, which starts ahead by `latency = filter_length / 2`. -/
def initState (K : Type*) [Zero K] (L : ℕ) : OlaState K :=
  { inputAccum := fun _ => 0
    outputAccum := fun _ => 0
    latencyDelay := fun _ => 0
    inputWritePos := 0
    outputReadPos := 0
    delayWritePos := L / 2
    delayReadPos := 0
    samplesInBuffer := 0
    blocksDone := 0 }

/-- The overlap-add accumulation loop (lines 95-97): `n` iterations of
`output_accum[(orp + j) % D] += blk[j]`. -/
def olaAdd [Add K] (oa : ℕ → K) (orp D : ℕ) (blk : ℕ → K) : ℕ → (ℕ → K)
  | 0 => oa
  | n + 1 =>
    upd (olaAdd oa orp D blk n) ((orp + n) % D)
      (olaAdd oa orp D blk n ((orp + n) % D) + blk n)

/-- The drain loop (lines 103-107): `n` iterations of reading
`output_accum[(orp + j) % D]`, writing the value divided by `2` into the
delay line at the write cursor, zeroing the drained slot, and advancing the
write cursor modulo `D`.  Returns the updated accumulator, delay line, and
delay write cursor. -/
def drainLoop [Field K] (oa ld : ℕ → K) (orp dwp D : ℕ) :
    ℕ → (ℕ → K) × (ℕ → K) × ℕ
  | 0 => (oa, ld, dwp)
  | n + 1 =>
    (upd (drainLoop oa ld orp dwp D n).1 ((orp + n) % D) 0,
     upd (drainLoop oa ld orp dwp D n).2.1 (drainLoop oa ld orp dwp D n).2.2
       ((drainLoop oa ld orp dwp D n).1 ((orp + n) % D) / 2),
     ((drainLoop oa ld orp dwp D n).2.2 + 1) % D)

/-- Variant of `drainLoop` with the "divide by 2" drain-time compensation
removed (claim C3's modified engine): the drained sample is transferred
verbatim. -/
def drainLoopND [Field K] (oa ld : ℕ → K) (orp dwp D : ℕ) :
    ℕ → (ℕ → K) × (ℕ → K) × ℕ
  | 0 => (oa, ld, dwp)
  | n + 1 =>
    (upd (drainLoopND oa ld orp dwp D n).1 ((orp + n) % D) 0,
     upd (drainLoopND oa ld orp dwp D n).2.1 (drainLoopND oa ld orp dwp D n).2.2
       ((drainLoopND oa ld orp dwp D n).1 ((orp + n) % D)),
     ((drainLoopND oa ld orp dwp D n).2.2 + 1) % D)

/-- The overlap-add accumulator contents right after the FFT-block branch
has assembled the window, convolved it, and overlap-added the result
(lines 78-97), before the drain: the state of `output_accum` between lines
97 and 103 of the source. -/
def stepOa1 [Field K] (L : ℕ) (g : ℕ → K) (s : OlaState K) (x : K) : ℕ → K :=
  olaAdd s.outputAccum s.outputReadPos (2 * (2 * L))
    (cconv (fftBuf (upd s.inputAccum s.inputWritePos x) ((s.inputWritePos + 1) % L) L)
      g (2 * L))
    (2 * L)

/-- One loop iteration in which the FFT-block branch fires (lines 71-114
with `samples_in_buffer >= hop_size`): store the input sample, run the
block (window, convolve, overlap-add, drain), advance the cursors, read one
output sample from the delay line. -/
def stepRun [Field K] (L : ℕ) (g : ℕ → K) (s : OlaState K) (x : K) : OlaState K × K :=
  ({ inputAccum := upd s.inputAccum s.inputWritePos x
     outputAccum := (drainLoop (stepOa1 L g s x) s.latencyDelay s.outputReadPos
       s.delayWritePos (2 * (2 * L)) (L / 2)).1
     latencyDelay := (drainLoop (stepOa1 L g s x) s.latencyDelay s.outputReadPos
       s.delayWritePos (2 * (2 * L)) (L / 2)).2.1
     inputWritePos := (s.inputWritePos + 1) % L
     outputReadPos := (s.outputReadPos + L / 2) % (2 * (2 * L))
     delayWritePos := (drainLoop (stepOa1 L g s x) s.latencyDelay s.outputReadPos
       s.delayWritePos (2 * (2 * L)) (L / 2)).2.2
     delayReadPos := (s.delayReadPos + 1) % (2 * (2 * L))
     samplesInBuffer := 0
     blocksDone := s.blocksDone + 1 },
   (drainLoop (stepOa1 L g s x) s.latencyDelay s.outputReadPos
     s.delayWritePos (2 * (2 * L)) (L / 2)).2.1 s.delayReadPos)

/-- One loop iteration in which the FFT-block branch does not fire: store
the input sample and read one (unchanged) delay-line sample. -/
def stepIdle [Field K] (L : ℕ) (s : OlaState K) (x : K) : OlaState K × K :=
  ({ inputAccum := upd s.inputAccum s.inputWritePos x
     outputAccum := s.outputAccum
     latencyDelay := s.latencyDelay
     inputWritePos := (s.inputWritePos + 1) % L
     outputReadPos := s.outputReadPos
     delayWritePos := s.delayWritePos
     delayReadPos := (s.delayReadPos + 1) % (2 * (2 * L))
     samplesInBuffer := s.samplesInBuffer + 1
     blocksDone := s.blocksDone },
   s.latencyDelay s.delayReadPos)

/-- The body of the `for i in range(len(input_signal))` loop of
`process_overlap_add`, for one input sample: returns the successor state and
the output sample `output[i]` produced by this iteration. -/
def step [Field K] (L : ℕ) (g : ℕ → K) (s : OlaState K) (x : K) : OlaState K × K :=
  if L / 2 ≤ s.samplesInBuffer + 1 then stepRun L g s x else stepIdle L s x

/-- `stepRun` with the drain-time halving removed (claim C3). -/
def stepRunND [Field K] (L : ℕ) (g : ℕ → K) (s : OlaState K) (x : K) : OlaState K × K :=
  ({ inputAccum := upd s.inputAccum s.inputWritePos x
     outputAccum := (drainLoopND (stepOa1 L g s x) s.latencyDelay s.outputReadPos
       s.delayWritePos (2 * (2 * L)) (L / 2)).1
     latencyDelay := (drainLoopND (stepOa1 L g s x) s.latencyDelay s.outputReadPos
       s.delayWritePos (2 * (2 * L)) (L / 2)).2.1
     inputWritePos := (s.inputWritePos + 1) % L
     outputReadPos := (s.outputReadPos + L / 2) % (2 * (2 * L))
     delayWritePos := (drainLoopND (stepOa1 L g s x) s.latencyDelay s.outputReadPos
       s.delayWritePos (2 * (2 * L)) (L / 2)).2.2
     delayReadPos := (s.delayReadPos + 1) % (2 * (2 * L))
     samplesInBuffer := 0
     blocksDone := s.blocksDone + 1 },
   (drainLoopND (stepOa1 L g s x) s.latencyDelay s.outputReadPos
     s.delayWritePos (2 * (2 * L)) (L / 2)).2.1 s.delayReadPos)

/-- `step` with the drain-time halving removed (claim C3). -/
def stepND [Field K] (L : ℕ) (g : ℕ → K) (s : OlaState K) (x : K) : OlaState K × K :=
  if L / 2 ≤ s.samplesInBuffer + 1 then stepRunND L g s x else stepIdle L s x

/-- Engine state after the first `n` samples of the input stream have been
processed, starting from the freshly configured (reset) state. -/
def stateAfter [Field K] (L : ℕ) (g : ℕ → K) (input : ℕ → K) : ℕ → OlaState K
  | 0 => initState K L
  | n + 1 => (step L g (stateAfter L g input n) (input n)).1

/-- The engine's output stream: `outAt L g input n` is `output[n]`, the
sample emitted while processing `input[n]`. -/
def outAt [Field K] (L : ℕ) (g : ℕ → K) (input : ℕ → K) (n : ℕ) : K :=
  (step L g (stateAfter L g input n) (input n)).2

/-- State after `n` samples for the no-halving engine (claim C3). -/
def stateAfterND [Field K] (L : ℕ) (g : ℕ → K) (input : ℕ → K) : ℕ → OlaState K
  | 0 => initState K L
  | n + 1 => (stepND L g (stateAfterND L g input n) (input n)).1

/-- Output stream of the no-halving engine (claim C3). -/
def outNDAt [Field K] (L : ℕ) (g : ℕ → K) (input : ℕ → K) (n : ℕ) : K :=
  (stepND L g (stateAfterND L g input n) (input n)).2

/-- The loop of `process_overlap_add` over a finite input list, threading
the state and collecting the emitted output samples. -/
def runList [Field K] (L : ℕ) (g : ℕ → K) : OlaState K → List K → List K
  | _, [] => []
  | s, x :: xs =>
    let p := step L g s x
    p.2 :: runList L g p.1 xs

/-- The source's `process_overlap_add(input_signal, ir_freq_domain,
filter_length)`: process the whole input list from the initial state and
return the equally long output list (the IR is passed as the time-domain
sequence underlying the interleaved spectrum argument, see `cconv`). -/
def process_overlap_add [Field K] (input : List K) (g : ℕ → K) (L : ℕ) : List K :=
  runList L g (initState K L) input

/-- Configuration failure taxonomy of spec section 7. -/
inductive ConfigError where
  | notPowerOfTwo : ConfigError
  | tapsTooLong : ConfigError
deriving DecidableEq

/-- Boolean power-of-two test used by the modelled configuration check. -/
def isPow2 (n : ℕ) : Bool := (List.range (n + 1)).any fun k => n == 2 ^ k

/-- Modelled from the spec: the configuration-time IR builder
`build(filter_length, time_domain_taps)` of spec sections 4.1, 6 and 7.  The
production `LinearPhaseEQProcessor` that performs this validation is not in
the repository sources (only the test harness is), so the build step is
modelled from the spec's words: a non-power-of-two filter length or taps
longer than the filter length are fatal configuration errors rejected
before any spectrum is published; otherwise the taps are embedded at their
symmetric center, zero-padded, and published. -/
def buildIR [Field K] (L : ℕ) (taps : List K) : Except ConfigError (ℕ → K) :=
  if ¬ isPow2 L then .error .notPowerOfTwo
  else if L < taps.length then .error .tapsTooLong
  else .ok fun t =>
    let off := L / 2 - taps.length / 2
    if off ≤ t ∧ t < off + taps.length then taps.getD (t - off) 0 else 0

/-- The largest number congruent to `q` modulo `D` that is below `W`
(meaningful for `q < W` and `0 < D`): the absolute index of the most recent
circular-buffer write landing in slot `q`, given that writes have covered
absolute positions up to `W` so far. -/
def lastW (q W D : ℕ) : ℕ := q + D * ((W - 1 - q) / D)

/-- Closed form of the input ring buffer after `N` pushed samples: slot
`p < L` holds the most recent input whose index is congruent to `p` modulo
`L`, and is still zero if no input has reached it. -/
def eIA [Zero K] (input : ℕ → K) (L N : ℕ) : ℕ → K :=
  fun p => if p < L ∧ p < N then input (N - 1 - (N - 1 - p) % L) else 0

/-- Closed form of the overlap-add accumulator for the centered-impulse IR
after `k` convolution blocks, with `filter_length = 2 * h`: writing
`d` for the circular distance of slot `p` ahead of the output read cursor
(which sits at absolute position `k * h`), the pending region `d < h` holds
the doubly-contributed samples `2 * input (k * h + d - 2 * h)` (once two
blocks have run), the region `h ≤ d < 2 * h` holds the singly-contributed
tail `input (k * h + d - 2 * h)` (once one block has run), and everything
else is zero. -/
def eOA [Field K] (input : ℕ → K) (h k : ℕ) : ℕ → K :=
  fun p =>
    if p < 8 * h then
      (fun d =>
        if d < h then (if 2 ≤ k then 2 * input (k * h + d - 2 * h) else 0)
        else if d < 2 * h then (if 1 ≤ k then input (k * h + d - 2 * h) else 0)
        else 0)
      ((p + 8 * h - k * h % (8 * h)) % (8 * h))
    else 0

/-- Closed form of the latency delay line for the centered-impulse IR after
`N` processed samples, with `filter_length = 2 * h`: drains so far have
written absolute positions `[h, h + (N / h) * h)`, and the drain covering
absolute position `w` deposited `input (w - 3 * h)` (zero while `w < 3 * h`,
before any input has propagated through the pipeline). -/
def eLD [Zero K] (input : ℕ → K) (h N : ℕ) : ℕ → K :=
  fun q =>
    if q < 8 * h ∧ q < h + N / h * h then
      (fun w => if 3 * h ≤ w then input (w - 3 * h) else 0)
      (lastW q (h + N / h * h) (8 * h))
    else 0

lemma upd_same (f : ℕ → K) (i : ℕ) (v : K) : upd f i v i = v := by
  simp [upd]

lemma upd_other (f : ℕ → K) {i j : ℕ} (v : K) (h : j ≠ i) : upd f i v j = f j := by
  simp [upd, h]

section ModToolkit

variable {A D n j j' p : ℕ}

lemma mod_add_cancel (hD : 0 < D) (hj : j < D) :
    ((A + j) % D + D - A % D) % D = j := by
  have ha : A % D < D := Nat.mod_lt _ hD
  rw [Nat.add_mod A j, Nat.mod_eq_of_lt hj]
  by_cases hcase : A % D + j < D
  · rw [Nat.mod_eq_of_lt hcase]
    have he : A % D + j + D - A % D = j + D := by omega
    rw [he, Nat.add_mod_right, Nat.mod_eq_of_lt hj]
  · have hin : (A % D + j) % D = A % D + j - D := by
      rw [Nat.mod_eq_sub_mod (by omega), Nat.mod_eq_of_lt (by omega)]
    rw [hin]
    have he : A % D + j - D + D - A % D = j := by omega
    rw [he, Nat.mod_eq_of_lt hj]

lemma mod_add_recover (hD : 0 < D) (hp : p < D) :
    (A + (p + D - A % D) % D) % D = p := by
  have ha : A % D < D := Nat.mod_lt _ hD
  by_cases hc : A % D ≤ p
  · have hx : (p + D - A % D) % D = p - A % D := by
      have h1 : p + D - A % D = p - A % D + D := by omega
      rw [h1, Nat.add_mod_right, Nat.mod_eq_of_lt (by omega)]
    rw [hx, Nat.add_mod, Nat.mod_eq_of_lt (show p - A % D < D by omega)]
    have h2 : A % D + (p - A % D) = p := by omega
    rw [h2, Nat.mod_eq_of_lt hp]
  · have hx : (p + D - A % D) % D = p + D - A % D := Nat.mod_eq_of_lt (by omega)
    rw [hx, Nat.add_mod, Nat.mod_eq_of_lt (show p + D - A % D < D by omega)]
    have h2 : A % D + (p + D - A % D) = p + D := by omega
    rw [h2, Nat.add_mod_right, Nat.mod_eq_of_lt hp]

lemma mod_add_inj (hD : 0 < D) (hj : j < D) (hj' : j' < D)
    (he : (A + j) % D = (A + j') % D) : j = j' := by
  have h1 := mod_add_cancel (A := A) hD hj
  have h2 := mod_add_cancel (A := A) hD hj'
  rw [he] at h1
  exact h1.symm.trans h2

lemma mod_cover (hD : 0 < D) (hn : n ≤ D) (hp : p < D) :
    (∃ j, j < n ∧ (A + j) % D = p) ↔ (p + D - A % D) % D < n := by
  constructor
  · rintro ⟨j, hj, rfl⟩
    rw [mod_add_cancel hD (lt_of_lt_of_le hj hn)]
    exact hj
  · intro hd
    exact ⟨_, hd, mod_add_recover hD hp⟩

lemma succ_mod_eq_zero_iff {M h : ℕ} (hh : 0 < h) :
    (M + 1) % h = 0 ↔ M % h + 1 = h := by
  have hr : M % h < h := Nat.mod_lt _ hh
  rw [← Nat.mod_add_mod]
  constructor
  · intro H
    by_cases hc : M % h + 1 < h
    · rw [Nat.mod_eq_of_lt hc] at H
      omega
    · omega
  · intro H
    rw [H, Nat.mod_self]

lemma succ_div_of_mod_ne {M h : ℕ} (hne : (M + 1) % h ≠ 0) :
    (M + 1) / h = M / h := by
  have hdvd : ¬ h ∣ (M + 1) := by
    rintro ⟨c, hc⟩
    exact hne (by rw [hc, Nat.mul_mod_right])
  rw [Nat.succ_div, if_neg hdvd]
  omega

lemma succ_div_of_mod_eq {M h : ℕ} (he : (M + 1) % h = 0) :
    (M + 1) / h = M / h + 1 := by
  rw [Nat.succ_div, if_pos (Nat.dvd_of_mod_eq_zero he)]

end ModToolkit

section LoopLemmas

variable [Field K] {oa ld blk : ℕ → K} {A D dwp : ℕ}

lemma olaAdd_out {n p : ℕ} (hout : ∀ j, j < n → (A + j) % D ≠ p) :
    olaAdd oa A D blk n p = oa p := by
  induction n with
  | zero => rfl
  | succ m ih =>
    rw [olaAdd, upd_other _ _ (Ne.symm (hout m (by omega)))]
    exact ih fun j hj => hout j (by omega)

lemma olaAdd_in (hD : 0 < D) :
    ∀ {n j : ℕ}, n ≤ D → j < n →
      olaAdd oa A D blk n ((A + j) % D) = oa ((A + j) % D) + blk j := by
  intro n
  induction n with
  | zero => omega
  | succ m ih =>
    intro j hn hj
    rw [olaAdd]
    by_cases hjm : j = m
    · subst hjm
      rw [upd_same, olaAdd_out fun j' hj' he =>
        (by omega : j' ≠ j) (mod_add_inj hD (by omega) (by omega) he)]
    · rw [upd_other _ _ fun he =>
        hjm (mod_add_inj hD (by omega) (by omega) he)]
      exact ih (by omega) (by omega)

lemma drainLoop_dwp (hdwp : dwp < D) :
    ∀ n : ℕ, (drainLoop oa ld A dwp D n).2.2 = (dwp + n) % D := by
  intro n
  induction n with
  | zero => exact (Nat.mod_eq_of_lt hdwp).symm
  | succ m ih =>
    rw [drainLoop]
    show ((drainLoop oa ld A dwp D m).2.2 + 1) % D = _
    rw [ih, Nat.mod_add_mod, Nat.add_assoc]

lemma drainLoop_oa_out {n p : ℕ} (hout : ∀ j, j < n → (A + j) % D ≠ p) :
    (drainLoop oa ld A dwp D n).1 p = oa p := by
  induction n with
  | zero => rfl
  | succ m ih =>
    rw [drainLoop]
    show upd _ ((A + m) % D) 0 p = oa p
    rw [upd_other _ _ (Ne.symm (hout m (by omega)))]
    exact ih fun j hj => hout j (by omega)

lemma drainLoop_oa_in (hD : 0 < D) :
    ∀ {n j : ℕ}, n ≤ D → j < n →
      (drainLoop oa ld A dwp D n).1 ((A + j) % D) = 0 := by
  intro n
  induction n with
  | zero => omega
  | succ m ih =>
    intro j hn hj
    rw [drainLoop]
    show upd _ ((A + m) % D) 0 _ = 0
    by_cases hjm : j = m
    · subst hjm
      rw [upd_same]
    · rw [upd_other _ _ fun he =>
        hjm (mod_add_inj hD (by omega) (by omega) he)]
      exact ih (by omega) (by omega)

lemma drainLoop_ld_in (hD : 0 < D) (hdwp : dwp < D) :
    ∀ {n j : ℕ}, n ≤ D → j < n →
      (drainLoop oa ld A dwp D n).2.1 ((dwp + j) % D) = oa ((A + j) % D) / 2 := by
  intro n
  induction n with
  | zero => omega
  | succ m ih =>
    intro j hn hj
    rw [drainLoop]
    show upd _ ((drainLoop oa ld A dwp D m).2.2) _ _ = _
    rw [drainLoop_dwp hdwp]
    by_cases hjm : j = m
    · subst hjm
      rw [upd_same, drainLoop_oa_out fun j' hj' he =>
        (by omega : j' ≠ j) (mod_add_inj hD (by omega) (by omega) he)]
    · rw [upd_other _ _ fun he =>
        hjm (mod_add_inj hD (by omega) (by omega) he)]
      exact ih (by omega) (by omega)

lemma drainLoop_ld_out (hdwp : dwp < D) {n q : ℕ}
    (hout : ∀ j, j < n → (dwp + j) % D ≠ q) :
    (drainLoop oa ld A dwp D n).2.1 q = ld q := by
  induction n with
  | zero => rfl
  | succ m ih =>
    rw [drainLoop]
    show upd _ ((drainLoop oa ld A dwp D m).2.2) _ q = ld q
    rw [drainLoop_dwp hdwp, upd_other _ _ (Ne.symm (hout m (by omega)))]
    exact ih fun j hj => hout j (by omega)

end LoopLemmas

section StepLemmas

variable [Field K] {L : ℕ} {g : ℕ → K} {s : OlaState K} {x : K}

lemma step_run (htr : L / 2 ≤ s.samplesInBuffer + 1) :
    step L g s x = stepRun L g s x := by
  rw [step, if_pos htr]

lemma step_idle (htr : ¬ L / 2 ≤ s.samplesInBuffer + 1) :
    step L g s x = stepIdle L s x := by
  rw [step, if_neg htr]

lemma stepND_run (htr : L / 2 ≤ s.samplesInBuffer + 1) :
    stepND L g s x = stepRunND L g s x := by
  rw [stepND, if_pos htr]

lemma stepND_idle (htr : ¬ L / 2 ≤ s.samplesInBuffer + 1) :
    stepND L g s x = stepIdle L s x := by
  rw [stepND, if_neg htr]

end StepLemmas

section StepProj

variable [Field K] {L : ℕ} {g : ℕ → K} {s : OlaState K} {x : K}

lemma stepRun_inputAccum :
    (stepRun L g s x).1.inputAccum = upd s.inputAccum s.inputWritePos x := rfl

lemma stepRun_outputAccum :
    (stepRun L g s x).1.outputAccum = (drainLoop (stepOa1 L g s x) s.latencyDelay
      s.outputReadPos s.delayWritePos (2 * (2 * L)) (L / 2)).1 := rfl

lemma stepRun_latencyDelay :
    (stepRun L g s x).1.latencyDelay = (drainLoop (stepOa1 L g s x) s.latencyDelay
      s.outputReadPos s.delayWritePos (2 * (2 * L)) (L / 2)).2.1 := rfl

lemma stepRun_inputWritePos :
    (stepRun L g s x).1.inputWritePos = (s.inputWritePos + 1) % L := rfl

lemma stepRun_outputReadPos :
    (stepRun L g s x).1.outputReadPos = (s.outputReadPos + L / 2) % (2 * (2 * L)) := rfl

lemma stepRun_delayWritePos :
    (stepRun L g s x).1.delayWritePos = (drainLoop (stepOa1 L g s x) s.latencyDelay
      s.outputReadPos s.delayWritePos (2 * (2 * L)) (L / 2)).2.2 := rfl

lemma stepRun_delayReadPos :
    (stepRun L g s x).1.delayReadPos = (s.delayReadPos + 1) % (2 * (2 * L)) := rfl

lemma stepRun_samplesInBuffer : (stepRun L g s x).1.samplesInBuffer = 0 := rfl

lemma stepRun_blocksDone : (stepRun L g s x).1.blocksDone = s.blocksDone + 1 := rfl

lemma stepRun_out :
    (stepRun L g s x).2 = (drainLoop (stepOa1 L g s x) s.latencyDelay
      s.outputReadPos s.delayWritePos (2 * (2 * L)) (L / 2)).2.1 s.delayReadPos := rfl

lemma stepIdle_inputAccum :
    (stepIdle L s x).1.inputAccum = upd s.inputAccum s.inputWritePos x :=
  (rfl : (stepIdle (K := K) L s x).1.inputAccum = _)

lemma stepIdle_outputAccum : (stepIdle L s x).1.outputAccum = s.outputAccum := rfl

lemma stepIdle_latencyDelay : (stepIdle L s x).1.latencyDelay = s.latencyDelay := rfl

lemma stepIdle_inputWritePos :
    (stepIdle L s x).1.inputWritePos = (s.inputWritePos + 1) % L := rfl

lemma stepIdle_outputReadPos : (stepIdle L s x).1.outputReadPos = s.outputReadPos := rfl

lemma stepIdle_delayWritePos : (stepIdle L s x).1.delayWritePos = s.delayWritePos := rfl

lemma stepIdle_delayReadPos :
    (stepIdle L s x).1.delayReadPos = (s.delayReadPos + 1) % (2 * (2 * L)) := rfl

lemma stepIdle_samplesInBuffer :
    (stepIdle L s x).1.samplesInBuffer = s.samplesInBuffer + 1 := rfl

lemma stepIdle_blocksDone : (stepIdle L s x).1.blocksDone = s.blocksDone := rfl

lemma stepIdle_out : (stepIdle L s x).2 = s.latencyDelay s.delayReadPos := rfl

lemma stepRunND_inputAccum :
    (stepRunND L g s x).1.inputAccum = upd s.inputAccum s.inputWritePos x := rfl

lemma stepRunND_outputAccum :
    (stepRunND L g s x).1.outputAccum = (drainLoopND (stepOa1 L g s x) s.latencyDelay
      s.outputReadPos s.delayWritePos (2 * (2 * L)) (L / 2)).1 := rfl

lemma stepRunND_latencyDelay :
    (stepRunND L g s x).1.latencyDelay = (drainLoopND (stepOa1 L g s x) s.latencyDelay
      s.outputReadPos s.delayWritePos (2 * (2 * L)) (L / 2)).2.1 := rfl

lemma stepRunND_inputWritePos :
    (stepRunND L g s x).1.inputWritePos = (s.inputWritePos + 1) % L := rfl

lemma stepRunND_outputReadPos :
    (stepRunND L g s x).1.outputReadPos = (s.outputReadPos + L / 2) % (2 * (2 * L)) := rfl

lemma stepRunND_delayWritePos :
    (stepRunND L g s x).1.delayWritePos = (drainLoopND (stepOa1 L g s x) s.latencyDelay
      s.outputReadPos s.delayWritePos (2 * (2 * L)) (L / 2)).2.2 := rfl

lemma stepRunND_delayReadPos :
    (stepRunND L g s x).1.delayReadPos = (s.delayReadPos + 1) % (2 * (2 * L)) := rfl

lemma stepRunND_samplesInBuffer : (stepRunND L g s x).1.samplesInBuffer = 0 := rfl

lemma stepRunND_blocksDone : (stepRunND L g s x).1.blocksDone = s.blocksDone + 1 := rfl

lemma stepRunND_out :
    (stepRunND L g s x).2 = (drainLoopND (stepOa1 L g s x) s.latencyDelay
      s.outputReadPos s.delayWritePos (2 * (2 * L)) (L / 2)).2.1 s.delayReadPos := rfl

end StepProj

section PosInv

variable [Field K]

/-- Cursor and counter invariant of the engine: positions are independent of
the processed data and follow the block count `N / hop`. -/
lemma posInv (L : ℕ) (g input : ℕ → K) (hL : 0 < L / 2) :
    ∀ N : ℕ,
      (stateAfter L g input N).inputWritePos = N % L ∧
      (stateAfter L g input N).samplesInBuffer = N % (L / 2) ∧
      (stateAfter L g input N).outputReadPos =
        N / (L / 2) * (L / 2) % (2 * (2 * L)) ∧
      (stateAfter L g input N).delayWritePos =
        (L / 2 + N / (L / 2) * (L / 2)) % (2 * (2 * L)) ∧
      (stateAfter L g input N).delayReadPos = N % (2 * (2 * L)) ∧
      (stateAfter L g input N).blocksDone = N / (L / 2) := by
  intro N
  induction N with
  | zero =>
    refine ⟨by simp [stateAfter, initState], by simp [stateAfter, initState],
      by simp [stateAfter, initState], ?_, by simp [stateAfter, initState],
      by simp [stateAfter, initState]⟩
    show L / 2 = (L / 2 + 0 / (L / 2) * (L / 2)) % (2 * (2 * L))
    rw [Nat.zero_div, Nat.zero_mul, Nat.add_zero, Nat.mod_eq_of_lt (by omega)]
  | succ N ih =>
    obtain ⟨h1, h2, h3, h4, h5, h6⟩ := ih
    by_cases htr : (N + 1) % (L / 2) = 0
    · have hsib : L / 2 ≤ (stateAfter L g input N).samplesInBuffer + 1 := by
        rw [h2]
        have := (succ_mod_eq_zero_iff hL).mp htr
        omega
      have hstep : stateAfter L g input (N + 1) =
          (stepRun L g (stateAfter L g input N) (input N)).1 := by
        rw [stateAfter, step_run hsib]
      have hdwp_lt : (stateAfter L g input N).delayWritePos < 2 * (2 * L) := by
        rw [h4]
        exact Nat.mod_lt _ (by omega)
      rw [hstep]
      refine ⟨?_, ?_, ?_, ?_, ?_, ?_⟩
      · rw [stepRun_inputWritePos, h1, Nat.mod_add_mod]
      · rw [stepRun_samplesInBuffer, htr]
      · rw [stepRun_outputReadPos, h3, Nat.mod_add_mod, succ_div_of_mod_eq htr]
        congr 1
        ring
      · rw [stepRun_delayWritePos, drainLoop_dwp hdwp_lt, h4, Nat.mod_add_mod,
          succ_div_of_mod_eq htr]
        congr 1
        ring
      · rw [stepRun_delayReadPos, h5, Nat.mod_add_mod]
      · rw [stepRun_blocksDone, h6, succ_div_of_mod_eq htr]
    · have hne : N % (L / 2) + 1 ≠ L / 2 := fun hc =>
        htr ((succ_mod_eq_zero_iff hL).mpr hc)
      have hlt : N % (L / 2) < L / 2 := Nat.mod_lt _ hL
      have hsib : ¬ L / 2 ≤ (stateAfter L g input N).samplesInBuffer + 1 := by
        rw [h2]
        omega
      have hstep : stateAfter L g input (N + 1) =
          (stepIdle L (stateAfter L g input N) (input N)).1 := by
        rw [stateAfter, step_idle hsib]
      rw [hstep]
      refine ⟨?_, ?_, ?_, ?_, ?_, ?_⟩
      · rw [stepIdle_inputWritePos, h1, Nat.mod_add_mod]
      · rw [stepIdle_samplesInBuffer, h2]
        have hlt2 : N % (L / 2) + 1 < L / 2 := by omega
        have hmod : (N + 1) % (L / 2) = N % (L / 2) + 1 := by
          rw [← Nat.mod_add_mod, Nat.mod_eq_of_lt hlt2]
        rw [hmod]
      · rw [stepIdle_outputReadPos, h3, succ_div_of_mod_ne htr]
      · rw [stepIdle_delayWritePos, h4, succ_div_of_mod_ne htr]
      · rw [stepIdle_delayReadPos, h5, Nat.mod_add_mod]
      · rw [stepIdle_blocksDone, h6, succ_div_of_mod_ne htr]

end PosInv

section InputInv

variable [Field K]

lemma step_inputAccum {L : ℕ} {g : ℕ → K} {s : OlaState K} {x : K} :
    (step L g s x).1.inputAccum = upd s.inputAccum s.inputWritePos x := by
  rw [step]
  split <;> rfl

lemma step_inputWritePos {L : ℕ} {g : ℕ → K} {s : OlaState K} {x : K} :
    (step L g s x).1.inputWritePos = (s.inputWritePos + 1) % L := by
  rw [step]
  split <;> rfl

lemma step_delayReadPos {L : ℕ} {g : ℕ → K} {s : OlaState K} {x : K} :
    (step L g s x).1.delayReadPos = (s.delayReadPos + 1) % (2 * (2 * L)) := by
  rw [step]
  split <;> rfl

lemma eIA_succ (input : ℕ → K) {L : ℕ} (hL : 0 < L) (N : ℕ) :
    ∀ p, eIA input L (N + 1) p = upd (eIA input L N) (N % L) (input N) p := by
  intro p
  by_cases hp : p = N % L
  · subst hp
    rw [upd_same]
    have hpL : N % L < L := Nat.mod_lt _ hL
    have h0 := Nat.div_add_mod N L
    simp only [eIA]
    rw [if_pos ⟨hpL, by omega⟩, Nat.add_sub_cancel]
    have hsub : N - N % L = L * (N / L) := by omega
    rw [hsub, Nat.mul_mod_right, Nat.sub_zero]
  · rw [upd_other _ _ hp]
    by_cases hpL : p < L
    · by_cases hpN : p < N
      · have hmod0 : (N - p) % L ≠ 0 := by
          intro h0
          obtain ⟨k, hk⟩ := Nat.dvd_of_mod_eq_zero h0
          have hNk : N = p + L * k := by omega
          have hNL : N % L = p := by
            rw [hNk, Nat.add_mul_mod_self_left, Nat.mod_eq_of_lt hpL]
          exact hp hNL.symm
        have hNp : N - p = N - 1 - p + 1 := by omega
        have hr1 : (N - 1 - p) % L < L := Nat.mod_lt _ hL
        by_cases hr2 : (N - 1 - p) % L + 1 < L
        · have hNm : (N - p) % L = (N - 1 - p) % L + 1 := by
            rw [hNp, ← Nat.mod_add_mod, Nat.mod_eq_of_lt hr2]
          simp only [eIA]
          rw [if_pos ⟨hpL, by omega⟩, if_pos ⟨hpL, hpN⟩, Nat.add_sub_cancel, hNm]
          congr 1
          omega
        · exfalso
          apply hmod0
          rw [hNp, ← Nat.mod_add_mod]
          have he : (N - 1 - p) % L + 1 = L := by omega
          rw [he, Nat.mod_self]
      · have hpN1 : ¬ p < N + 1 := by
          intro hc
          have hpe : p = N := by omega
          subst hpe
          exact hp (Nat.mod_eq_of_lt hpL).symm
        simp only [eIA]
        rw [if_neg fun hcon => hpN1 hcon.2, if_neg fun hcon => hpN hcon.2]
    · simp only [eIA]
      rw [if_neg fun hcon => hpL hcon.1, if_neg fun hcon => hpL hcon.1]

/-- Ring-buffer invariant: after `N` pushed samples the input accumulator is
exactly the closed form `eIA`. -/
lemma iaInv (L : ℕ) (g input : ℕ → K) (hL : 0 < L / 2) :
    ∀ N p, (stateAfter L g input N).inputAccum p = eIA input L N p := by
  intro N
  induction N with
  | zero =>
    intro p
    simp [stateAfter, initState, eIA]
  | succ N ih =>
    intro p
    have hiwp := (posInv L g input hL N).1
    rw [stateAfter, step_inputAccum, hiwp, eIA_succ input (by omega) N p]
    by_cases hp : p = N % L
    · subst hp
      rw [upd_same, upd_same]
    · rw [upd_other _ _ hp, upd_other _ _ hp]
      exact ih p

/-- Reading the ring buffer closed form as the chronological window of the
most recent `L` inputs: entry `t` of the window assembled after `M` pushes. -/
lemma eIA_window (input : ℕ → K) {L : ℕ} (hL : 0 < L) (M : ℕ) {t : ℕ} (ht : t < L) :
    eIA input L M ((M + t) % L) = if L ≤ M + t then input (M + t - L) else 0 := by
  by_cases hc : L ≤ M + t
  · rw [if_pos hc]
    have hi0M : M + t - L < M := by omega
    have hmodp : (M + t) % L = (M + t - L) % L := Nat.mod_eq_sub_mod hc
    have hpi0 : (M + t) % L ≤ M + t - L := by
      rw [hmodp]
      exact Nat.mod_le _ _
    have hpL : (M + t) % L < L := Nat.mod_lt _ hL
    simp only [eIA]
    rw [if_pos ⟨hpL, by omega⟩]
    have hd := Nat.div_add_mod (M + t - L) L
    have hk : M + t - L - (M + t) % L = L * ((M + t - L) / L) := by omega
    have hkey : (M - 1 - (M + t) % L) % L = M - 1 - (M + t - L) := by
      have hsplit : M - 1 - (M + t) % L = M - 1 - (M + t - L) + L * ((M + t - L) / L) := by
        omega
      rw [hsplit, Nat.add_mul_mod_self_left, Nat.mod_eq_of_lt (by omega)]
    rw [hkey]
    congr 1
    omega
  · rw [if_neg hc]
    have hp : (M + t) % L = M + t := Nat.mod_eq_of_lt (by omega)
    simp only [eIA]
    rw [if_neg]
    intro hcon
    rw [hp] at hcon
    omega

end InputInv

section AccumSupport

variable [Field K]

/-- Trigger characterisation: the FFT-block branch fires while processing
sample `N` exactly when `N + 1` is a multiple of the hop size. -/
lemma trigger_iff (L : ℕ) (g input : ℕ → K) (hL : 0 < L / 2) (N : ℕ) :
    L / 2 ≤ (stateAfter L g input N).samplesInBuffer + 1 ↔ (N + 1) % (L / 2) = 0 := by
  have hsib := (posInv L g input hL N).2.1
  have hNlt : N % (L / 2) < L / 2 := Nat.mod_lt _ hL
  rw [hsib, succ_mod_eq_zero_iff hL]
  omega

/-- Accumulator support invariant for an arbitrary IR: every non-zero slot of
the overlap-add accumulator lies within `2 * L - L / 2` positions ahead of
the output read cursor, i.e. in the unconsumed tail of the most recent
convolution outputs. -/
lemma oaSupportInv (L : ℕ) (g input : ℕ → K) (hL : 0 < L / 2) :
    ∀ N p, (stateAfter L g input N).outputAccum p ≠ 0 →
      p < 2 * (2 * L) ∧
      ∃ j, j < 2 * L - L / 2 ∧
        p = (N / (L / 2) * (L / 2) + j) % (2 * (2 * L)) := by
  intro N
  induction N with
  | zero =>
    intro p hne
    exact absurd rfl hne
  | succ N ih =>
    intro p hne
    have hD : 0 < 2 * (2 * L) := by omega
    have hhD : L / 2 ≤ 2 * (2 * L) := by omega
    have hFD : 2 * L ≤ 2 * (2 * L) := by omega
    have horp := (posInv L g input hL N).2.2.1
    by_cases htr : L / 2 ≤ (stateAfter L g input N).samplesInBuffer + 1
    · have hstep : stateAfter L g input (N + 1) =
          (stepRun L g (stateAfter L g input N) (input N)).1 := by
        rw [stateAfter, step_run htr]
      rw [hstep, stepRun_outputAccum] at hne
      simp only [stepOa1] at hne
      rw [horp] at hne
      have hmod : (N + 1) % (L / 2) = 0 := (trigger_iff L g input hL N).mp htr
      have hdiv : (N + 1) / (L / 2) = N / (L / 2) + 1 := succ_div_of_mod_eq hmod
      by_cases hpD : p < 2 * (2 * L)
      · by_cases hdr : ∃ j, j < L / 2 ∧
            (N / (L / 2) * (L / 2) + j) % (2 * (2 * L)) = p
        · obtain ⟨j, hj, hpe⟩ := hdr
          exfalso
          apply hne
          have hpe' : (N / (L / 2) * (L / 2) % (2 * (2 * L)) + j) % (2 * (2 * L)) = p := by
            rw [Nat.mod_add_mod]
            exact hpe
          rw [← hpe']
          exact drainLoop_oa_in hD hhD hj
        · rw [drainLoop_oa_out (fun j hj he =>
            hdr ⟨j, hj, by rw [← Nat.mod_add_mod]; exact he⟩)] at hne
          by_cases hadd : ∃ j, j < 2 * L ∧
              (N / (L / 2) * (L / 2) + j) % (2 * (2 * L)) = p
          · obtain ⟨j, hj, hpe⟩ := hadd
            have hjh : ¬ j < L / 2 := fun hc => hdr ⟨j, hc, hpe⟩
            refine ⟨hpD, j - L / 2, by omega, ?_⟩
            rw [hdiv, ← hpe]
            congr 1
            have hmul : (N / (L / 2) + 1) * (L / 2) = N / (L / 2) * (L / 2) + L / 2 := by
              ring
            omega
          · rw [olaAdd_out (fun j hj he =>
              hadd ⟨j, hj, by rw [← Nat.mod_add_mod]; exact he⟩)] at hne
            obtain ⟨hpD', j', hj', hpe'⟩ := ih p hne
            have hj'h : ¬ j' < L / 2 := fun hc => hdr ⟨j', hc, hpe'.symm⟩
            refine ⟨hpD, j' - L / 2, by omega, ?_⟩
            rw [hdiv, hpe']
            congr 1
            have hmul : (N / (L / 2) + 1) * (L / 2) = N / (L / 2) * (L / 2) + L / 2 := by
              ring
            omega
      · exfalso
        rw [drainLoop_oa_out (fun j hj he => hpD (by rw [← he]; exact Nat.mod_lt _ hD))]
          at hne
        rw [olaAdd_out (fun j hj he => hpD (by rw [← he]; exact Nat.mod_lt _ hD))] at hne
        exact hpD (ih p hne).1
    · have hstep : stateAfter L g input (N + 1) =
          (stepIdle L (stateAfter L g input N) (input N)).1 := by
        rw [stateAfter, step_idle htr]
      rw [hstep, stepIdle_outputAccum] at hne
      have hmodne : (N + 1) % (L / 2) ≠ 0 := fun hc =>
        htr ((trigger_iff L g input hL N).mpr hc)
      rw [succ_div_of_mod_ne hmodne]
      exact ih p hne

end AccumSupport

section DeltaConv

variable [Field K]

lemma mod_reflect {F t j : ℕ} (hF : 0 < F) (ht : t < F) :
    (j + F - (j + F - t) % F) % F = t := by
  have h1 : t ≤ j + F := by omega
  have hd := Nat.div_add_mod (j + F - t) F
  have hr : (j + F - t) % F < F := Nat.mod_lt _ hF
  have h2 : j + F - (j + F - t) % F = t + F * ((j + F - t) / F) := by omega
  rw [h2, Nat.add_mul_mod_self_left, Nat.mod_eq_of_lt ht]

/-- Cyclic convolution with the centered unit impulse is a cyclic shift by
`L / 2`: the exact effect of the flat-IR spectrum multiply. -/
lemma cconv_delta {L F : ℕ} (hF : 0 < F) (hLF : L / 2 < F) (x : ℕ → K) (j : ℕ) :
    cconv x (flatIRTime L) F j = x ((j + F - L / 2) % F) := by
  rw [cconv]
  have key : ∀ t ∈ Finset.range F, x t * flatIRTime L ((j + F - t) % F)
      = if t = (j + F - L / 2) % F then x t else 0 := by
    intro t htm
    rw [Finset.mem_range] at htm
    simp only [flatIRTime]
    by_cases he : t = (j + F - L / 2) % F
    · rw [if_pos he]
      have hh : (j + F - t) % F = L / 2 := by
        rw [he, mod_reflect hF hLF]
      rw [if_pos hh, mul_one]
    · rw [if_neg he]
      have hne : (j + F - t) % F ≠ L / 2 := by
        intro hc
        have hrefl := mod_reflect hF htm (j := j)
        rw [hc] at hrefl
        exact he hrefl.symm
      rw [if_neg hne, mul_zero]
  rw [Finset.sum_congr rfl key, Finset.sum_ite_eq' (Finset.range F) _ x,
    if_pos (Finset.mem_range.mpr (Nat.mod_lt _ hF))]

end DeltaConv

section LastWLemmas

variable {q W D w : ℕ}

lemma lastW_lt (hq : q < W) : lastW q W D < W := by
  rw [lastW, Nat.mul_comm]
  have h1 : (W - 1 - q) / D * D ≤ W - 1 - q := Nat.div_mul_le_self _ _
  omega

lemma lastW_ge (hq : q < W) (hD : 0 < D) : W ≤ lastW q W D + D := by
  rw [lastW]
  have h2 := Nat.div_add_mod (W - 1 - q) D
  have h3 : (W - 1 - q) % D < D := Nat.mod_lt _ hD
  omega

lemma lastW_mod : lastW q W D % D = q % D := by
  rw [lastW, Nat.add_mul_mod_self_left]

lemma lastW_unique (hq : q < W) (hD : 0 < D) (hmod : w % D = q % D)
    (hlt : w < W) (hge : W ≤ w + D) : w = lastW q W D := by
  have h2 := lastW_lt (D := D) hq
  have h3 := lastW_ge hq hD
  have h4 : lastW q W D % D = q % D := lastW_mod
  have hw := Nat.div_add_mod w D
  have hl := Nat.div_add_mod (lastW q W D) D
  rcases le_total w (lastW q W D) with hle | hle
  · have hsub : lastW q W D - w = D * (lastW q W D / D) - D * (w / D) := by omega
    have hdvd : D ∣ lastW q W D - w := by
      rw [hsub]
      exact Nat.dvd_sub' (dvd_mul_right D _) (dvd_mul_right D _)
    have hz := Nat.eq_zero_of_dvd_of_lt hdvd
    omega
  · have hsub : w - lastW q W D = D * (w / D) - D * (lastW q W D / D) := by omega
    have hdvd : D ∣ w - lastW q W D := by
      rw [hsub]
      exact Nat.dvd_sub' (dvd_mul_right D _) (dvd_mul_right D _)
    have hz := Nat.eq_zero_of_dvd_of_lt hdvd
    omega

end LastWLemmas

section WindowChar

variable [Field K]

/-- The assembled FFT window at the moment sample `N` is stored equals the
chronological window of the last `L` inputs (zero-filled before the stream
started). -/
lemma window_char (L : ℕ) (g input : ℕ → K) (hL : 0 < L / 2) (N : ℕ) {t : ℕ}
    (ht : t < L) :
    fftBuf (upd (stateAfter L g input N).inputAccum
        (stateAfter L g input N).inputWritePos (input N))
      (((stateAfter L g input N).inputWritePos + 1) % L) L t
    = if L ≤ N + 1 + t then input (N + 1 + t - L) else 0 := by
  have hL0 : 0 < L := by omega
  have hiwp := (posInv L g input hL N).1
  have hupd : ∀ p, upd (stateAfter L g input N).inputAccum
      (stateAfter L g input N).inputWritePos (input N) p = eIA input L (N + 1) p := by
    intro p
    rw [hiwp, eIA_succ input hL0 N p]
    by_cases hp : p = N % L
    · subst hp
      rw [upd_same, upd_same]
    · rw [upd_other _ _ hp, upd_other _ _ hp, iaInv L g input hL N p]
  simp only [fftBuf]
  rw [if_pos ht, hupd, hiwp]
  have hidx : ((N % L + 1) % L + t) % L = (N + 1 + t) % L := by
    rw [Nat.mod_add_mod, Nat.add_assoc, Nat.mod_add_mod, ← Nat.add_assoc]
  rw [hidx]
  exact eIA_window input hL0 (N + 1) ht

end WindowChar

section EldStep

variable [Field K] {input : ℕ → K}

lemma eLD_succ_ne {h N : ℕ} (hmodne : (N + 1) % h ≠ 0) :
    eLD input h (N + 1) = eLD input h N := by
  funext q
  simp only [eLD]
  rw [succ_div_of_mod_ne hmodne]

lemma eLD_written {h K₀ N : ℕ} (hh : 0 < h) (hdiv : (N + 1) / h = K₀ + 1)
    {j : ℕ} (hj : j < h) :
    eLD input h (N + 1) ((h + K₀ * h + j) % (8 * h))
      = if 2 ≤ K₀ then input (K₀ * h + j - 2 * h) else 0 := by
  have hKe : (K₀ + 1) * h = K₀ * h + h := by ring
  have hq8 : (h + K₀ * h + j) % (8 * h) < 8 * h := Nat.mod_lt _ (by omega)
  have hqle : (h + K₀ * h + j) % (8 * h) ≤ h + K₀ * h + j := Nat.mod_le _ _
  have hqW : (h + K₀ * h + j) % (8 * h) < h + (K₀ + 1) * h := by omega
  have hwuniq : h + K₀ * h + j = lastW ((h + K₀ * h + j) % (8 * h))
      (h + (K₀ + 1) * h) (8 * h) := by
    refine lastW_unique hqW (by omega) ?_ (by omega) (by omega)
    rw [Nat.mod_eq_of_lt hq8]
  simp only [eLD]
  rw [hdiv, if_pos (show (h + K₀ * h + j) % (8 * h) < 8 * h ∧
    (h + K₀ * h + j) % (8 * h) < h + (K₀ + 1) * h from ⟨hq8, hqW⟩), ← hwuniq]
  by_cases hK : 2 ≤ K₀
  · have h2h : 2 * h ≤ K₀ * h := Nat.mul_le_mul_right h hK
    rw [if_pos (by omega), if_pos hK]
    congr 1
    omega
  · obtain hK0 | hK1 : K₀ = 0 ∨ K₀ = 1 := by omega
    · subst hK0
      rw [if_neg (by intro hcon; rw [Nat.zero_mul] at hcon; omega), if_neg hK]
    · subst hK1
      rw [if_neg (by intro hcon; rw [Nat.one_mul] at hcon; omega), if_neg hK]

lemma eLD_unwritten {h K₀ N : ℕ} (hh : 0 < h) (hdiv : (N + 1) / h = K₀ + 1)
    (hdiv0 : N / h = K₀) {q : ℕ} (hq8 : q < 8 * h)
    (hno : ∀ j, j < h → (h + K₀ * h + j) % (8 * h) ≠ q) :
    eLD input h (N + 1) q = eLD input h N q := by
  have hKe : (K₀ + 1) * h = K₀ * h + h := by ring
  by_cases hqW : q < h + K₀ * h
  · have hW'q : q < h + (K₀ + 1) * h := by omega
    have hw_lt := lastW_lt (D := 8 * h) hqW
    have hw_ge := lastW_ge hqW (by omega : 0 < 8 * h)
    have hw_mod := lastW_mod (q := q) (W := h + K₀ * h) (D := 8 * h)
    have hge' : h + (K₀ + 1) * h ≤ lastW q (h + K₀ * h) (8 * h) + 8 * h := by
      by_contra hcon
      push_neg at hcon
      have hj : lastW q (h + K₀ * h) (8 * h) + 8 * h - (h + K₀ * h) < h := by omega
      apply hno (lastW q (h + K₀ * h) (8 * h) + 8 * h - (h + K₀ * h)) hj
      have he : h + K₀ * h + (lastW q (h + K₀ * h) (8 * h) + 8 * h - (h + K₀ * h))
          = lastW q (h + K₀ * h) (8 * h) + 8 * h := by omega
      rw [he, Nat.add_mod_right, hw_mod, Nat.mod_eq_of_lt hq8]
    have huniq := lastW_unique hW'q (show 0 < 8 * h by omega)
      (w := lastW q (h + K₀ * h) (8 * h)) hw_mod (by omega) hge'
    simp only [eLD]
    rw [hdiv, hdiv0, ← huniq,
      if_pos (show q < 8 * h ∧ q < h + (K₀ + 1) * h from ⟨hq8, hW'q⟩),
      if_pos (show q < 8 * h ∧ q < h + K₀ * h from ⟨hq8, hqW⟩)]
  · by_cases hqW' : q < h + (K₀ + 1) * h
    · exfalso
      apply hno (q - (h + K₀ * h)) (by omega)
      have he : h + K₀ * h + (q - (h + K₀ * h)) = q := by omega
      rw [he, Nat.mod_eq_of_lt hq8]
    · simp only [eLD]
      rw [hdiv, hdiv0, if_neg (fun hc => hqW' hc.2), if_neg (fun hc => hqW hc.2)]

end EldStep

section EoaStep

variable [Field K] {input ld : ℕ → K}

/-- Transition of the accumulator closed form across one FFT block for the
centered-impulse IR: overlap-adding the (shifted-window) block at the read
cursor and draining one hop advances `eOA` from `K₀` to `K₀ + 1` blocks. -/
lemma eOA_step {h K₀ : ℕ} (hh : 0 < h) (dwp : ℕ) (tOut : ℕ → K)
    (htOut : ∀ j, j < 4 * h → tOut j =
      if h ≤ j ∧ j < 3 * h ∧ 2 * h ≤ K₀ * h + j then input (K₀ * h + j - 2 * h) else 0) :
    ∀ p, (drainLoop (olaAdd (eOA input h K₀) (K₀ * h % (8 * h)) (8 * h) tOut (4 * h))
        ld (K₀ * h % (8 * h)) dwp (8 * h) h).1 p = eOA input h (K₀ + 1) p := by
  intro p
  by_cases hpD : p < 8 * h
  · have hdd : (p + 8 * h - K₀ * h % (8 * h)) % (8 * h) < 8 * h :=
      Nat.mod_lt _ (by omega)
    obtain ⟨d, hd_def⟩ : ∃ d, (p + 8 * h - K₀ * h % (8 * h)) % (8 * h) = d := ⟨_, rfl⟩
    have hdD : d < 8 * h := hd_def ▸ hdd
    have hrec : (K₀ * h + d) % (8 * h) = p := by
      rw [← hd_def]
      exact mod_add_recover (by omega) hpD
    have hKe : (K₀ + 1) * h = K₀ * h + h := by ring
    by_cases hdh : d < h
    · have hpe : (K₀ * h % (8 * h) + d) % (8 * h) = p := by
        rw [Nat.mod_add_mod]
        exact hrec
      rw [← hpe, drainLoop_oa_in (by omega) (by omega) hdh, hpe]
      have hd' : (p + 8 * h - (K₀ + 1) * h % (8 * h)) % (8 * h) = d + 7 * h := by
        have he : (K₀ + 1) * h + (d + 7 * h) = K₀ * h + d + 8 * h := by ring
        have hcan := mod_add_cancel (A := (K₀ + 1) * h) (D := 8 * h) (by omega)
          (show d + 7 * h < 8 * h by omega)
        rw [he, Nat.add_mod_right, hrec] at hcan
        exact hcan
      simp only [eOA]
      rw [if_pos hpD, hd', if_neg (by omega : ¬ d + 7 * h < h),
        if_neg (by omega : ¬ d + 7 * h < 2 * h)]
    · have hnodrain : ∀ j, j < h → (K₀ * h % (8 * h) + j) % (8 * h) ≠ p := by
        intro j hj he
        rw [Nat.mod_add_mod] at he
        have := mod_add_inj (A := K₀ * h) (D := 8 * h) (by omega)
          (show j < 8 * h by omega) hdD (he.trans hrec.symm)
        omega
      rw [drainLoop_oa_out hnodrain]
      have hd' : (p + 8 * h - (K₀ + 1) * h % (8 * h)) % (8 * h) = d - h := by
        have he : (K₀ + 1) * h + (d - h) = K₀ * h + d := by omega
        have hcan := mod_add_cancel (A := (K₀ + 1) * h) (D := 8 * h) (by omega)
          (show d - h < 8 * h by omega)
        rw [he, hrec] at hcan
        exact hcan
      by_cases hdF : d < 4 * h
      · have hpe : (K₀ * h % (8 * h) + d) % (8 * h) = p := by
          rw [Nat.mod_add_mod]
          exact hrec
        rw [← hpe, olaAdd_in (by omega) (by omega) hdF, hpe, htOut d hdF]
        simp only [eOA]
        rw [if_pos hpD, if_pos hpD, hd', hd_def]
        by_cases hd2 : d < 2 * h
        · rw [if_neg (by omega : ¬ d < h), if_pos hd2,
            if_pos (by omega : d - h < h)]
          by_cases hK : 1 ≤ K₀
          · have h1h : 1 * h ≤ K₀ * h := Nat.mul_le_mul_right h hK
            rw [if_pos hK, if_pos (by omega : 2 ≤ K₀ + 1),
              if_pos (show h ≤ d ∧ d < 3 * h ∧ 2 * h ≤ K₀ * h + d by
                refine ⟨by omega, by omega, by omega⟩)]
            have hidx : (K₀ + 1) * h + (d - h) - 2 * h = K₀ * h + d - 2 * h := by
              omega
            rw [hidx]
            exact (two_mul _).symm
          · have hK0 : K₀ = 0 := by omega
            subst hK0
            rw [if_neg hK,
              if_neg (show ¬ (h ≤ d ∧ d < 3 * h ∧ 2 * h ≤ 0 * h + d) by
                rintro ⟨-, -, h3⟩
                rw [Nat.zero_mul] at h3
                omega),
              if_neg (by omega : ¬ 2 ≤ 0 + 1), add_zero]
        · by_cases hd3 : d < 3 * h
          · rw [if_neg (by omega : ¬ d < h), if_neg hd2,
              if_pos (show h ≤ d ∧ d < 3 * h ∧ 2 * h ≤ K₀ * h + d by
                refine ⟨by omega, hd3, by omega⟩),
              if_neg (by omega : ¬ d - h < h), if_pos (by omega : d - h < 2 * h),
              if_pos (by omega : 1 ≤ K₀ + 1), zero_add]
            congr 1
            omega
          · rw [if_neg (by omega : ¬ d < h), if_neg hd2,
              if_neg (show ¬ (h ≤ d ∧ d < 3 * h ∧ 2 * h ≤ K₀ * h + d) by
                rintro ⟨-, hcon, -⟩
                omega),
              if_neg (by omega : ¬ d - h < h),
              if_neg (by omega : ¬ d - h < 2 * h), add_zero]
      · have hnoadd : ∀ j, j < 4 * h → (K₀ * h % (8 * h) + j) % (8 * h) ≠ p := by
          intro j hj he
          rw [Nat.mod_add_mod] at he
          have := mod_add_inj (A := K₀ * h) (D := 8 * h) (by omega)
            (show j < 8 * h by omega) hdD (he.trans hrec.symm)
          omega
        rw [olaAdd_out hnoadd]
        simp only [eOA]
        rw [if_pos hpD, if_pos hpD, hd', hd_def]
        rw [if_neg (by omega : ¬ d < h), if_neg (by omega : ¬ d < 2 * h),
          if_neg (by omega : ¬ d - h < h), if_neg (by omega : ¬ d - h < 2 * h)]
  · have hout : ∀ j, j < h → (K₀ * h % (8 * h) + j) % (8 * h) ≠ p := by
      intro j hj he
      apply hpD
      rw [← he]
      exact Nat.mod_lt _ (by omega)
    have hout' : ∀ j, j < 4 * h → (K₀ * h % (8 * h) + j) % (8 * h) ≠ p := by
      intro j hj he
      apply hpD
      rw [← he]
      exact Nat.mod_lt _ (by omega)
    rw [drainLoop_oa_out hout, olaAdd_out hout']
    simp only [eOA]
    rw [if_neg hpD, if_neg hpD]

/-- Value deposited into the delay line for drained offset `j < h` at a
block boundary: the doubly-accumulated pending sample, halved. -/
lemma drain_value (h2 : (2 : K) ≠ 0) {h K₀ : ℕ} (hh : 0 < h) {dwp : ℕ}
    (hdwp : dwp < 8 * h) (tOut : ℕ → K)
    (htOut : ∀ j, j < 4 * h → tOut j =
      if h ≤ j ∧ j < 3 * h ∧ 2 * h ≤ K₀ * h + j then input (K₀ * h + j - 2 * h) else 0)
    {j : ℕ} (hj : j < h) :
    (drainLoop (olaAdd (eOA input h K₀) (K₀ * h % (8 * h)) (8 * h) tOut (4 * h))
        ld (K₀ * h % (8 * h)) dwp (8 * h) h).2.1 ((dwp + j) % (8 * h))
      = if 2 ≤ K₀ then input (K₀ * h + j - 2 * h) else 0 := by
  rw [drainLoop_ld_in (by omega) hdwp (by omega) hj]
  rw [olaAdd_in (by omega) (by omega) (show j < 4 * h by omega)]
  have hslot : (K₀ * h % (8 * h) + j) % (8 * h) = (K₀ * h + j) % (8 * h) :=
    Nat.mod_add_mod _ _ _
  rw [hslot]
  have hsl_lt : (K₀ * h + j) % (8 * h) < 8 * h := Nat.mod_lt _ (by omega)
  have hdist : ((K₀ * h + j) % (8 * h) + 8 * h - K₀ * h % (8 * h)) % (8 * h) = j :=
    mod_add_cancel (by omega) (by omega)
  simp only [eOA]
  rw [if_pos hsl_lt, hdist, if_pos hj, htOut j (by omega),
    if_neg (show ¬ (h ≤ j ∧ j < 3 * h ∧ 2 * h ≤ K₀ * h + j) by
      rintro ⟨hcon, -, -⟩
      omega),
    add_zero]
  by_cases hK : 2 ≤ K₀
  · rw [if_pos hK, if_pos hK]
    exact mul_div_cancel_left₀ _ h2
  · rw [if_neg hK, if_neg hK, zero_div]

end EoaStep

section DeltaInv

variable [Field K]

/-- Full buffer characterisation of the engine running the centered-impulse
(pass-through) IR with `filter_length = 2 * h`: after `N` samples the
overlap-add accumulator and the latency delay line match their closed
forms. -/
lemma deltaInv (h2 : (2 : K) ≠ 0) {h : ℕ} (hh : 0 < h) (input : ℕ → K) :
    ∀ N : ℕ,
      (∀ p, (stateAfter (2 * h) (flatIRTime (2 * h)) input N).outputAccum p
        = eOA input h (N / h) p) ∧
      (∀ q, (stateAfter (2 * h) (flatIRTime (2 * h)) input N).latencyDelay q
        = eLD input h N q) := by
  have hL2 : 2 * h / 2 = h := by omega
  have hL0 : 0 < 2 * h / 2 := by omega
  have hD8 : 2 * (2 * (2 * h)) = 8 * h := by ring
  have hF4 : 2 * (2 * h) = 4 * h := by ring
  intro N
  induction N with
  | zero =>
    constructor
    · intro p
      show (0 : K) = eOA input h (0 / h) p
      rw [Nat.zero_div]
      simp only [eOA]
      split_ifs <;> first | rfl | omega
    · intro q
      show (0 : K) = eLD input h 0 q
      simp only [eLD, lastW, Nat.zero_div, Nat.zero_mul, Nat.add_zero]
      split_ifs with hq hw
      · have hdiv0 : (h - 1 - q) / (8 * h) = 0 := Nat.div_eq_of_lt (by omega)
        rw [hdiv0, Nat.mul_zero, Nat.add_zero] at hw
        omega
      · rfl
      · rfl
  | succ N ih =>
    have hiff := trigger_iff (2 * h) (flatIRTime (2 * h)) input hL0 N
    rw [hL2] at hiff
    have horp := (posInv (2 * h) (flatIRTime (2 * h)) input hL0 N).2.2.1
    rw [hL2, hD8] at horp
    have hdwp := (posInv (2 * h) (flatIRTime (2 * h)) input hL0 N).2.2.2.1
    rw [hL2, hD8] at hdwp
    have hOAfun : (stateAfter (2 * h) (flatIRTime (2 * h)) input N).outputAccum
        = eOA input h (N / h) := funext ih.1
    have hLDfun : (stateAfter (2 * h) (flatIRTime (2 * h)) input N).latencyDelay
        = eLD input h N := funext ih.2
    by_cases hmod : (N + 1) % h = 0
    · have htr : 2 * h / 2 ≤
          (stateAfter (2 * h) (flatIRTime (2 * h)) input N).samplesInBuffer + 1 := by
        rw [hL2]
        exact hiff.mpr hmod
      have hdiv : (N + 1) / h = N / h + 1 := succ_div_of_mod_eq hmod
      have hNe : N + 1 = N / h * h + h := by
        have hdm := Nat.div_add_mod (N + 1) h
        rw [hdiv, hmod] at hdm
        have hc : h * (N / h + 1) = N / h * h + h := by ring
        omega
      have htOutChar : ∀ j, j < 4 * h →
          cconv (fftBuf (upd (stateAfter (2 * h) (flatIRTime (2 * h)) input N).inputAccum
              (stateAfter (2 * h) (flatIRTime (2 * h)) input N).inputWritePos (input N))
            (((stateAfter (2 * h) (flatIRTime (2 * h)) input N).inputWritePos + 1) % (2 * h))
            (2 * h))
            (flatIRTime (2 * h)) (4 * h) j
          = if h ≤ j ∧ j < 3 * h ∧ 2 * h ≤ N / h * h + j
            then input (N / h * h + j - 2 * h) else 0 := by
        intro j hj
        rw [cconv_delta (by omega) (by omega : 2 * h / 2 < 4 * h), hL2]
        by_cases hjh : h ≤ j
        · have hidx : (j + 4 * h - h) % (4 * h) = j - h := by
            have h1 : j + 4 * h - h = j - h + 4 * h := by omega
            rw [h1, Nat.add_mod_right, Nat.mod_eq_of_lt (by omega)]
          rw [hidx]
          by_cases hj3 : j < 3 * h
          · have hwc := window_char (2 * h) (flatIRTime (2 * h)) input hL0 N
              (t := j - h) (by omega)
            rw [hwc]
            have hexp : N + 1 + (j - h) = N / h * h + j := by omega
            rw [hexp]
            by_cases hcc : 2 * h ≤ N / h * h + j
            · rw [if_pos hcc, if_pos ⟨hjh, hj3, hcc⟩]
            · rw [if_neg hcc, if_neg (fun hcon => hcc hcon.2.2)]
          · simp only [fftBuf]
            rw [if_neg (by omega : ¬ j - h < 2 * h),
              if_neg (show ¬ (h ≤ j ∧ j < 3 * h ∧ 2 * h ≤ N / h * h + j) by
                rintro ⟨-, hcon, -⟩
                omega)]
        · have hidx : (j + 4 * h - h) % (4 * h) = j + 3 * h := by
            have h1 : j + 4 * h - h = j + 3 * h := by omega
            rw [h1, Nat.mod_eq_of_lt (by omega)]
          rw [hidx]
          simp only [fftBuf]
          rw [if_neg (by omega : ¬ j + 3 * h < 2 * h),
            if_neg (show ¬ (h ≤ j ∧ j < 3 * h ∧ 2 * h ≤ N / h * h + j) by
              rintro ⟨hcon, -, -⟩
              omega)]
      constructor
      · intro p
        rw [stateAfter, step_run htr, stepRun_outputAccum]
        simp only [stepOa1]
        rw [horp, hdwp, hOAfun, hD8, hF4, hL2, hdiv]
        exact eOA_step hh ((h + N / h * h) % (8 * h)) _ htOutChar p
      · intro q
        rw [stateAfter, step_run htr, stepRun_latencyDelay]
        simp only [stepOa1]
        rw [horp, hdwp, hOAfun, hLDfun, hD8, hF4, hL2]
        by_cases hq8 : q < 8 * h
        · by_cases hwr : ∃ j, j < h ∧ (h + N / h * h + j) % (8 * h) = q
          · obtain ⟨j, hj, hje⟩ := hwr
            have hje' : ((h + N / h * h) % (8 * h) + j) % (8 * h) = q := by
              rw [Nat.mod_add_mod]
              exact hje
            rw [← hje',
              drain_value h2 hh (Nat.mod_lt _ (by omega)) _ htOutChar hj,
              Nat.mod_add_mod]
            exact (eLD_written hh hdiv hj).symm
          · have hnowr : ∀ j, j < h → ((h + N / h * h) % (8 * h) + j) % (8 * h) ≠ q := by
              intro j hj he
              rw [Nat.mod_add_mod] at he
              exact hwr ⟨j, hj, he⟩
            rw [drainLoop_ld_out (Nat.mod_lt _ (by omega)) hnowr]
            have hno' : ∀ j, j < h → (h + N / h * h + j) % (8 * h) ≠ q :=
              fun j hj he => hwr ⟨j, hj, he⟩
            exact (eLD_unwritten hh hdiv rfl hq8 hno').symm
        · rw [drainLoop_ld_out (Nat.mod_lt _ (by omega))
            (fun j hj he => hq8 (by rw [← he]; exact Nat.mod_lt _ (by omega)))]
          simp only [eLD]
          rw [if_neg (show ¬ (q < 8 * h ∧ q < h + N / h * h) from fun hc => hq8 hc.1),
            if_neg (show ¬ (q < 8 * h ∧ q < h + (N + 1) / h * h) from fun hc => hq8 hc.1)]
    · have htr : ¬ 2 * h / 2 ≤
          (stateAfter (2 * h) (flatIRTime (2 * h)) input N).samplesInBuffer + 1 := by
        rw [hL2]
        exact fun hc => hmod (hiff.mp hc)
      constructor
      · intro p
        rw [stateAfter, step_idle htr, stepIdle_outputAccum, ih.1 p,
          succ_div_of_mod_ne hmod]
      · intro q
        rw [stateAfter, step_idle htr, stepIdle_latencyDelay, ih.2 q,
          eLD_succ_ne hmod]

end DeltaInv

section DeltaOut

variable [Field K] {input : ℕ → K}

lemma step_out_eq {L : ℕ} {g : ℕ → K} {s : OlaState K} {x : K} :
    (step L g s x).2 = (step L g s x).1.latencyDelay s.delayReadPos := by
  rw [step]
  split <;> rfl

lemma eLD_out {h N : ℕ} (hh : 0 < h) :
    eLD input h (N + 1) (N % (8 * h)) = if 3 * h ≤ N then input (N - 3 * h) else 0 := by
  have hq8 : N % (8 * h) < 8 * h := Nat.mod_lt _ (by omega)
  have hdm := Nat.div_add_mod (N + 1) h
  have hr : (N + 1) % h < h := Nat.mod_lt _ hh
  have hcomm : h * ((N + 1) / h) = (N + 1) / h * h := Nat.mul_comm _ _
  have hmul_le : (N + 1) / h * h ≤ N + 1 := Nat.div_mul_le_self _ _
  have hWgt : N < h + (N + 1) / h * h := by omega
  have hWle : h + (N + 1) / h * h ≤ N + 8 * h := by omega
  have hqle : N % (8 * h) ≤ N := Nat.mod_le _ _
  have huniq : N = lastW (N % (8 * h)) (h + (N + 1) / h * h) (8 * h) := by
    refine lastW_unique (by omega) (by omega) ?_ hWgt hWle
    rw [Nat.mod_eq_of_lt hq8]
  simp only [eLD]
  rw [if_pos (show N % (8 * h) < 8 * h ∧ N % (8 * h) < h + (N + 1) / h * h from
      ⟨hq8, by omega⟩), ← huniq]

/-- End-to-end closed form of the engine with the centered-impulse IR: the
output stream is the input stream delayed by exactly `3 * h` samples, that
is `3 * filter_length / 2` (and zero before the delayed stream begins). -/
lemma deltaOutClosed (h2 : (2 : K) ≠ 0) {h : ℕ} (hh : 0 < h) (input : ℕ → K)
    (N : ℕ) :
    outAt (2 * h) (flatIRTime (2 * h)) input N
      = if 3 * h ≤ N then input (N - 3 * h) else 0 := by
  have hD8 : 2 * (2 * (2 * h)) = 8 * h := by ring
  have hL0 : 0 < 2 * h / 2 := by omega
  have hdrp := (posInv (2 * h) (flatIRTime (2 * h)) input hL0 N).2.2.2.2.1
  rw [hD8] at hdrp
  rw [outAt, step_out_eq,
    show (step (2 * h) (flatIRTime (2 * h))
        (stateAfter (2 * h) (flatIRTime (2 * h)) input N) (input N)).1
      = stateAfter (2 * h) (flatIRTime (2 * h)) input (N + 1) from rfl,
    (deltaInv h2 hh input (N + 1)).2 _, hdrp]
  exact eLD_out hh

end DeltaOut

section FirstZero

variable [Field K]

/-- Through the first hop the delay line's pre-seeded zero region
`[0, latency)` is untouched: the only drain so far writes `[latency, 2*latency)`. -/
lemma firstZero (L : ℕ) (g input : ℕ → K) (hL : 0 < L / 2) :
    ∀ N, N ≤ L / 2 → ∀ q, q < L / 2 →
      (stateAfter L g input N).latencyDelay q = 0 := by
  intro N
  induction N with
  | zero =>
    intro _ q _
    rfl
  | succ N ih =>
    intro hN q hq
    have hiff := trigger_iff L g input hL N
    by_cases hmod : (N + 1) % (L / 2) = 0
    · have htr := hiff.mpr hmod
      rw [stateAfter, step_run htr, stepRun_latencyDelay]
      have hNdiv : N / (L / 2) = 0 := Nat.div_eq_of_lt (by omega)
      have hdwp' : (stateAfter L g input N).delayWritePos = L / 2 := by
        rw [(posInv L g input hL N).2.2.2.1, hNdiv, Nat.zero_mul, Nat.add_zero,
          Nat.mod_eq_of_lt (by omega)]
      have hout : ∀ j, j < L / 2 →
          ((stateAfter L g input N).delayWritePos + j) % (2 * (2 * L)) ≠ q := by
        intro j hj he
        rw [hdwp', Nat.mod_eq_of_lt (by omega)] at he
        omega
      rw [drainLoop_ld_out (by rw [hdwp']; omega) hout]
      exact ih (by omega) q hq
    · have htr : ¬ L / 2 ≤ (stateAfter L g input N).samplesInBuffer + 1 :=
        fun hc => hmod (hiff.mp hc)
      rw [stateAfter, step_idle htr, stepIdle_latencyDelay]
      exact ih (by omega) q hq

/-- The first `latency = L / 2` output samples are exactly zero, for every
input stream and every IR. -/
lemma firstOutZero (L : ℕ) (g input : ℕ → K) (hL : 0 < L / 2) {i : ℕ}
    (hi : i < L / 2) :
    outAt L g input i = 0 := by
  have hdrp := (posInv L g input hL i).2.2.2.2.1
  rw [outAt, step_out_eq,
    show (step L g (stateAfter L g input i) (input i)).1
      = stateAfter L g input (i + 1) from rfl, hdrp,
    Nat.mod_eq_of_lt (by omega)]
  exact firstZero L g input hL (i + 1) (by omega) i hi

end FirstZero

section Causal

variable [Field K]

/-- The engine state after `N` samples depends only on the first `N` input
samples. -/
lemma stateCausal (L : ℕ) (g : ℕ → K) :
    ∀ N (x y : ℕ → K), (∀ i, i < N → x i = y i) →
      stateAfter L g x N = stateAfter L g y N := by
  intro N
  induction N with
  | zero =>
    intro x y _
    rfl
  | succ N ih =>
    intro x y hxy
    rw [stateAfter, stateAfter, ih x y (fun i hi => hxy i (by omega)),
      hxy N (by omega)]

/-- Output sample `N` depends only on input samples `0..N`: re-processing an
identical input stream from the reset state reproduces the output exactly. -/
lemma outCausal (L : ℕ) (g : ℕ → K) (x y : ℕ → K) (N : ℕ)
    (hxy : ∀ i, i ≤ N → x i = y i) :
    outAt L g x N = outAt L g y N := by
  rw [outAt, outAt, stateCausal L g N x y (fun i hi => hxy i (by omega)),
    hxy N (by omega)]

end Causal

section Config

lemma isPow2_iff (n : ℕ) : isPow2 n = true ↔ ∃ k, n = 2 ^ k := by
  rw [isPow2, List.any_eq_true]
  constructor
  · rintro ⟨k, -, hk⟩
    exact ⟨k, by simpa using hk⟩
  · rintro ⟨k, rfl⟩
    refine ⟨k, List.mem_range.mpr ?_, by simp⟩
    have := Nat.lt_two_pow k
    omega

lemma buildIR_error [Field K] (L : ℕ) (taps : List K)
    (hbad : ¬ (∃ k, L = 2 ^ k) ∨ L < taps.length) :
    ∃ e, buildIR L taps = Except.error e := by
  rw [buildIR]
  rcases hbad with hpow | hlen
  · rw [if_pos]
    · exact ⟨ConfigError.notPowerOfTwo, rfl⟩
    · intro hc
      exact hpow ((isPow2_iff L).mp hc)
  · by_cases hpow : ¬ isPow2 L = true
    · rw [if_pos hpow]
      exact ⟨ConfigError.notPowerOfTwo, rfl⟩
    · rw [if_neg hpow, if_pos hlen]
      exact ⟨ConfigError.tapsTooLong, rfl⟩

lemma buildIR_ok [Field K] (L : ℕ) (taps : List K)
    (hgood : (∃ k, L = 2 ^ k) ∧ taps.length ≤ L) :
    ∃ spec, buildIR L taps = Except.ok spec := by
  rw [buildIR, if_neg, if_neg (by omega)]
  · exact ⟨_, rfl⟩
  · intro hc
    exact hc ((isPow2_iff L).mpr hgood.1)

end Config

section NoDiv

variable [Field K]

lemma cconv_congr {w w' g : ℕ → K} {F : ℕ} (hw : ∀ t, w t = w' t) (j : ℕ) :
    cconv w g F j = cconv w' g F j := by
  simp only [cconv]
  exact Finset.sum_congr rfl fun t _ => by rw [hw t]

lemma olaAdd_congr {f f' blk blk' : ℕ → K} {A D : ℕ} (hf : ∀ p, f p = f' p)
    (hblk : ∀ j, blk j = blk' j) :
    ∀ n p, olaAdd f A D blk n p = olaAdd f' A D blk' n p := by
  intro n
  induction n with
  | zero => exact hf
  | succ m ih =>
    intro p
    simp only [olaAdd]
    by_cases hp : p = (A + m) % D
    · subst hp
      rw [upd_same, upd_same, ih, hblk]
    · rw [upd_other _ _ hp, upd_other _ _ hp]
      exact ih p

/-- Removing the drain-time halving leaves the accumulator and cursors
untouched and exactly doubles every delay-line sample. -/
lemma drainLoopND_rel (h2 : (2 : K) ≠ 0) {oand oa ldnd ld : ℕ → K} (A dwp D : ℕ)
    (hoa : ∀ p, oand p = oa p) (hld : ∀ q, ldnd q = 2 * ld q) :
    ∀ n, (∀ p, (drainLoopND oand ldnd A dwp D n).1 p
            = (drainLoop oa ld A dwp D n).1 p)
       ∧ (∀ q, (drainLoopND oand ldnd A dwp D n).2.1 q
            = 2 * (drainLoop oa ld A dwp D n).2.1 q)
       ∧ (drainLoopND oand ldnd A dwp D n).2.2 = (drainLoop oa ld A dwp D n).2.2 := by
  intro n
  induction n with
  | zero => exact ⟨hoa, hld, rfl⟩
  | succ m ih =>
    obtain ⟨ihoa, ihld, ihdwp⟩ := ih
    refine ⟨?_, ?_, ?_⟩
    · intro p
      simp only [drainLoopND, drainLoop]
      by_cases hp : p = (A + m) % D
      · subst hp
        rw [upd_same, upd_same]
      · rw [upd_other _ _ hp, upd_other _ _ hp]
        exact ihoa p
    · intro q
      simp only [drainLoopND, drainLoop]
      rw [ihdwp]
      by_cases hq : q = (drainLoop oa ld A dwp D m).2.2
      · subst hq
        rw [upd_same, upd_same, ihoa, mul_comm (2 : K), div_mul_cancel₀ _ h2]
      · rw [upd_other _ _ hq, upd_other _ _ hq]
        exact ihld q
    · simp only [drainLoopND, drainLoop]
      rw [ihdwp]

omit [Field K] in
lemma upd_congr {f f' : ℕ → K} {i : ℕ} {v : K} (hf : ∀ p, f p = f' p) :
    ∀ p, upd f i v p = upd f' i v p := by
  intro p
  by_cases hp : p = i
  · subst hp
    rw [upd_same, upd_same]
  · rw [upd_other _ _ hp, upd_other _ _ hp]
    exact hf p

lemma stepND_out_eq {L : ℕ} {g : ℕ → K} {s : OlaState K} {x : K} :
    (stepND L g s x).2 = (stepND L g s x).1.latencyDelay s.delayReadPos := by
  rw [stepND]
  split <;> rfl

/-- State relation between the engine and its no-halving variant: identical
ring buffer, accumulator and cursors; delay line doubled. -/
lemma stateNDrel (h2 : (2 : K) ≠ 0) (L : ℕ) (g input : ℕ → K) :
    ∀ N,
      (∀ p, (stateAfterND L g input N).inputAccum p
        = (stateAfter L g input N).inputAccum p) ∧
      (∀ p, (stateAfterND L g input N).outputAccum p
        = (stateAfter L g input N).outputAccum p) ∧
      (∀ q, (stateAfterND L g input N).latencyDelay q
        = 2 * (stateAfter L g input N).latencyDelay q) ∧
      (stateAfterND L g input N).inputWritePos
        = (stateAfter L g input N).inputWritePos ∧
      (stateAfterND L g input N).outputReadPos
        = (stateAfter L g input N).outputReadPos ∧
      (stateAfterND L g input N).delayWritePos
        = (stateAfter L g input N).delayWritePos ∧
      (stateAfterND L g input N).delayReadPos
        = (stateAfter L g input N).delayReadPos ∧
      (stateAfterND L g input N).samplesInBuffer
        = (stateAfter L g input N).samplesInBuffer := by
  intro N
  induction N with
  | zero =>
    refine ⟨fun p => rfl, fun p => rfl, fun q => ?_, rfl, rfl, rfl, rfl, rfl⟩
    show (0 : K) = 2 * 0
    ring
  | succ N ih =>
    obtain ⟨ihia, ihoa, ihld, ihiwp, ihorp, ihdwp, ihdrp, ihsib⟩ := ih
    have hoa1 : ∀ p, stepOa1 L g (stateAfterND L g input N) (input N) p
        = stepOa1 L g (stateAfter L g input N) (input N) p := by
      intro p
      simp only [stepOa1]
      rw [ihorp, ihiwp]
      refine olaAdd_congr ihoa (fun j => cconv_congr (fun t => ?_) j) (2 * L) p
      simp only [fftBuf]
      by_cases ht : t < L
      · rw [if_pos ht, if_pos ht]
        exact upd_congr ihia _
      · rw [if_neg ht, if_neg ht]
    by_cases htr : L / 2 ≤ (stateAfter L g input N).samplesInBuffer + 1
    · have htrn : L / 2 ≤ (stateAfterND L g input N).samplesInBuffer + 1 := by
        rw [ihsib]
        exact htr
      have hstm : stateAfterND L g input (N + 1)
          = (stepRunND L g (stateAfterND L g input N) (input N)).1 := by
        rw [stateAfterND, stepND_run htrn]
      have hst : stateAfter L g input (N + 1)
          = (stepRun L g (stateAfter L g input N) (input N)).1 := by
        rw [stateAfter, step_run htr]
      have hdl := drainLoopND_rel h2 (stateAfter L g input N).outputReadPos
        (stateAfter L g input N).delayWritePos (2 * (2 * L)) hoa1 ihld (L / 2)
      refine ⟨?_, ?_, ?_, ?_, ?_, ?_, ?_, ?_⟩
      · intro p
        rw [hstm, hst, stepRunND_inputAccum, stepRun_inputAccum, ihiwp]
        exact upd_congr ihia p
      · intro p
        rw [hstm, hst, stepRunND_outputAccum, stepRun_outputAccum, ihorp, ihdwp]
        exact hdl.1 p
      · intro q
        rw [hstm, hst, stepRunND_latencyDelay, stepRun_latencyDelay, ihorp, ihdwp]
        exact hdl.2.1 q
      · rw [hstm, hst, stepRunND_inputWritePos, stepRun_inputWritePos, ihiwp]
      · rw [hstm, hst, stepRunND_outputReadPos, stepRun_outputReadPos, ihorp]
      · rw [hstm, hst, stepRunND_delayWritePos, stepRun_delayWritePos, ihorp, ihdwp]
        exact hdl.2.2
      · rw [hstm, hst, stepRunND_delayReadPos, stepRun_delayReadPos, ihdrp]
      · rw [hstm, hst, stepRunND_samplesInBuffer, stepRun_samplesInBuffer]
    · have htrn : ¬ L / 2 ≤ (stateAfterND L g input N).samplesInBuffer + 1 := by
        rw [ihsib]
        exact htr
      have hstm : stateAfterND L g input (N + 1)
          = (stepIdle L (stateAfterND L g input N) (input N)).1 := by
        rw [stateAfterND, stepND_idle htrn]
      have hst : stateAfter L g input (N + 1)
          = (stepIdle L (stateAfter L g input N) (input N)).1 := by
        rw [stateAfter, step_idle htr]
      refine ⟨?_, ?_, ?_, ?_, ?_, ?_, ?_, ?_⟩
      · intro p
        rw [hstm, hst, stepIdle_inputAccum, stepIdle_inputAccum, ihiwp]
        exact upd_congr ihia p
      · intro p
        rw [hstm, hst, stepIdle_outputAccum, stepIdle_outputAccum]
        exact ihoa p
      · intro q
        rw [hstm, hst, stepIdle_latencyDelay, stepIdle_latencyDelay]
        exact ihld q
      · rw [hstm, hst, stepIdle_inputWritePos, stepIdle_inputWritePos, ihiwp]
      · rw [hstm, hst, stepIdle_outputReadPos, stepIdle_outputReadPos, ihorp]
      · rw [hstm, hst, stepIdle_delayWritePos, stepIdle_delayWritePos, ihdwp]
      · rw [hstm, hst, stepIdle_delayReadPos, stepIdle_delayReadPos, ihdrp]
      · rw [hstm, hst, stepIdle_samplesInBuffer, stepIdle_samplesInBuffer, ihsib]

/-- Removing the drain-time division by two exactly doubles every output
sample, for every input stream and every IR. -/
lemma outND_double (h2 : (2 : K) ≠ 0) (L : ℕ) (g input : ℕ → K) (N : ℕ) :
    outNDAt L g input N = 2 * outAt L g input N := by
  rw [outNDAt, outAt, stepND_out_eq, step_out_eq,
    show (stepND L g (stateAfterND L g input N) (input N)).1
      = stateAfterND L g input (N + 1) from rfl,
    show (step L g (stateAfter L g input N) (input N)).1
      = stateAfter L g input (N + 1) from rfl,
    (stateNDrel h2 L g input N).2.2.2.2.2.2.1]
  exact (stateNDrel h2 L g input (N + 1)).2.2.1 _



end NoDiv

section Linearity

variable [Field K]

lemma cconv_lin {a b : K} (w w' g : ℕ → K) (F j : ℕ) :
    cconv (fun t => a * w t + b * w' t) g F j
      = a * cconv w g F j + b * cconv w' g F j := by
  simp only [cconv]
  rw [Finset.mul_sum, Finset.mul_sum, ← Finset.sum_add_distrib]
  refine Finset.sum_congr rfl fun t ht => ?_
  ring

lemma olaAdd_lin {a b : K} {fmix f f' blkmix blk blk' : ℕ → K} {A D : ℕ}
    (hf : ∀ p, fmix p = a * f p + b * f' p)
    (hblk : ∀ j, blkmix j = a * blk j + b * blk' j) :
    ∀ n p, olaAdd fmix A D blkmix n p
      = a * olaAdd f A D blk n p + b * olaAdd f' A D blk' n p := by
  intro n
  induction n with
  | zero => exact hf
  | succ m ih =>
    intro p
    simp only [olaAdd]
    by_cases hp : p = (A + m) % D
    · subst hp
      rw [upd_same, upd_same, upd_same, ih, hblk]
      ring
    · rw [upd_other _ _ hp, upd_other _ _ hp, upd_other _ _ hp]
      exact ih p

lemma drainLoop_lin {a b : K} {oamix oa oa' ldmix ld ld' : ℕ → K} (A dwp D : ℕ)
    (hoa : ∀ p, oamix p = a * oa p + b * oa' p)
    (hld : ∀ q, ldmix q = a * ld q + b * ld' q) :
    ∀ n,
      (∀ p, (drainLoop oamix ldmix A dwp D n).1 p
        = a * (drainLoop oa ld A dwp D n).1 p
          + b * (drainLoop oa' ld' A dwp D n).1 p) ∧
      (∀ q, (drainLoop oamix ldmix A dwp D n).2.1 q
        = a * (drainLoop oa ld A dwp D n).2.1 q
          + b * (drainLoop oa' ld' A dwp D n).2.1 q) ∧
      (drainLoop oamix ldmix A dwp D n).2.2 = (drainLoop oa ld A dwp D n).2.2 ∧
      (drainLoop oa' ld' A dwp D n).2.2 = (drainLoop oa ld A dwp D n).2.2 := by
  intro n
  induction n with
  | zero => exact ⟨hoa, hld, rfl, rfl⟩
  | succ m ih =>
    obtain ⟨ihoa, ihld, ihdwp, ihdwp'⟩ := ih
    refine ⟨?_, ?_, ?_, ?_⟩
    · intro p
      simp only [drainLoop]
      by_cases hp : p = (A + m) % D
      · subst hp
        rw [upd_same, upd_same, upd_same]
        ring
      · rw [upd_other _ _ hp, upd_other _ _ hp, upd_other _ _ hp]
        exact ihoa p
    · intro q
      simp only [drainLoop]
      rw [ihdwp, ihdwp']
      by_cases hq : q = (drainLoop oa ld A dwp D m).2.2
      · subst hq
        rw [upd_same, upd_same, upd_same, ihoa]
        ring
      · rw [upd_other _ _ hq, upd_other _ _ hq, upd_other _ _ hq]
        exact ihld q
    · simp only [drainLoop]
      rw [ihdwp]
    · simp only [drainLoop]
      rw [ihdwp']

/-- Buffer linearity of the engine: running on the pointwise combination
`a * x + b * y` yields buffers that are the same combination of the two
individual runs (positions coincide across all three runs). -/
lemma stateLin (L : ℕ) (g : ℕ → K) (hL : 0 < L / 2) (a b : K) (x y : ℕ → K) :
    ∀ N,
      (∀ p, (stateAfter L g (fun n => a * x n + b * y n) N).inputAccum p
        = a * (stateAfter L g x N).inputAccum p
          + b * (stateAfter L g y N).inputAccum p) ∧
      (∀ p, (stateAfter L g (fun n => a * x n + b * y n) N).outputAccum p
        = a * (stateAfter L g x N).outputAccum p
          + b * (stateAfter L g y N).outputAccum p) ∧
      (∀ q, (stateAfter L g (fun n => a * x n + b * y n) N).latencyDelay q
        = a * (stateAfter L g x N).latencyDelay q
          + b * (stateAfter L g y N).latencyDelay q) := by
  intro N
  induction N with
  | zero =>
    refine ⟨fun p => ?_, fun p => ?_, fun q => ?_⟩ <;>
      · show (0 : K) = a * 0 + b * 0
        ring
  | succ N ih =>
    obtain ⟨ihia, ihoa, ihld⟩ := ih
    have hiwpm := (posInv L g (fun n => a * x n + b * y n) hL N).1
    have hiwpx := (posInv L g x hL N).1
    have hiwpy := (posInv L g y hL N).1
    have horpm := (posInv L g (fun n => a * x n + b * y n) hL N).2.2.1
    have horpx := (posInv L g x hL N).2.2.1
    have horpy := (posInv L g y hL N).2.2.1
    have hdwpm := (posInv L g (fun n => a * x n + b * y n) hL N).2.2.2.1
    have hdwpx := (posInv L g x hL N).2.2.2.1
    have hdwpy := (posInv L g y hL N).2.2.2.1
    have hwin : ∀ t, fftBuf (upd (stateAfter L g (fun n => a * x n + b * y n) N).inputAccum
          (N % L) (a * x N + b * y N)) ((N % L + 1) % L) L t
        = a * fftBuf (upd (stateAfter L g x N).inputAccum (N % L) (x N))
            ((N % L + 1) % L) L t
          + b * fftBuf (upd (stateAfter L g y N).inputAccum (N % L) (y N))
            ((N % L + 1) % L) L t := by
      intro t
      simp only [fftBuf]
      by_cases ht : t < L
      · rw [if_pos ht, if_pos ht, if_pos ht]
        by_cases hup : ((N % L + 1) % L + t) % L = N % L
        · rw [hup, upd_same, upd_same, upd_same]
        · rw [upd_other _ _ hup, upd_other _ _ hup, upd_other _ _ hup]
          exact ihia _
      · rw [if_neg ht, if_neg ht, if_neg ht]
        ring
    have hoam : ∀ p, stepOa1 L g (stateAfter L g (fun n => a * x n + b * y n) N)
          ((fun n => a * x n + b * y n) N) p
        = a * stepOa1 L g (stateAfter L g x N) (x N) p
          + b * stepOa1 L g (stateAfter L g y N) (y N) p := by
      intro p
      simp only [stepOa1]
      rw [hiwpm, hiwpx, hiwpy, horpm, horpx, horpy]
      refine olaAdd_lin ihoa (fun j => ?_) (2 * L) p
      have hcl := cconv_lin (a := a) (b := b)
        (fftBuf (upd (stateAfter L g x N).inputAccum (N % L) (x N)) ((N % L + 1) % L) L)
        (fftBuf (upd (stateAfter L g y N).inputAccum (N % L) (y N)) ((N % L + 1) % L) L)
        g (2 * L) j
      rw [← hcl]
      exact cconv_congr hwin j
    by_cases hmod : (N + 1) % (L / 2) = 0
    · have htrm := (trigger_iff L g (fun n => a * x n + b * y n) hL N).mpr hmod
      have htrx := (trigger_iff L g x hL N).mpr hmod
      have htry := (trigger_iff L g y hL N).mpr hmod
      have hstm : stateAfter L g (fun n => a * x n + b * y n) (N + 1)
          = (stepRun L g (stateAfter L g (fun n => a * x n + b * y n) N)
              (a * x N + b * y N)).1 := by
        rw [stateAfter, step_run htrm]
      have hstx : stateAfter L g x (N + 1)
          = (stepRun L g (stateAfter L g x N) (x N)).1 := by
        rw [stateAfter, step_run htrx]
      have hsty : stateAfter L g y (N + 1)
          = (stepRun L g (stateAfter L g y N) (y N)).1 := by
        rw [stateAfter, step_run htry]
      have hdl := drainLoop_lin (N / (L / 2) * (L / 2) % (2 * (2 * L)))
        ((L / 2 + N / (L / 2) * (L / 2)) % (2 * (2 * L))) (2 * (2 * L))
        hoam ihld (L / 2)
      refine ⟨?_, ?_, ?_⟩
      · intro p
        rw [hstm, hstx, hsty, stepRun_inputAccum, stepRun_inputAccum,
          stepRun_inputAccum, hiwpm, hiwpx, hiwpy]
        by_cases hp : p = N % L
        · subst hp
          rw [upd_same, upd_same, upd_same]
        · rw [upd_other _ _ hp, upd_other _ _ hp, upd_other _ _ hp]
          exact ihia p
      · intro p
        rw [hstm, hstx, hsty, stepRun_outputAccum, stepRun_outputAccum,
          stepRun_outputAccum, horpm, horpx, horpy, hdwpm, hdwpx, hdwpy]
        exact hdl.1 p
      · intro q
        rw [hstm, hstx, hsty, stepRun_latencyDelay, stepRun_latencyDelay,
          stepRun_latencyDelay, horpm, horpx, horpy, hdwpm, hdwpx, hdwpy]
        exact hdl.2.1 q
    · have htrm : ¬ L / 2 ≤ (stateAfter L g (fun n => a * x n + b * y n) N).samplesInBuffer + 1 :=
        fun hc => hmod ((trigger_iff L g (fun n => a * x n + b * y n) hL N).mp hc)
      have htrx : ¬ L / 2 ≤ (stateAfter L g x N).samplesInBuffer + 1 :=
        fun hc => hmod ((trigger_iff L g x hL N).mp hc)
      have htry : ¬ L / 2 ≤ (stateAfter L g y N).samplesInBuffer + 1 :=
        fun hc => hmod ((trigger_iff L g y hL N).mp hc)
      have hstm : stateAfter L g (fun n => a * x n + b * y n) (N + 1)
          = (stepIdle L (stateAfter L g (fun n => a * x n + b * y n) N)
              (a * x N + b * y N)).1 := by
        rw [stateAfter, step_idle htrm]
      have hstx : stateAfter L g x (N + 1)
          = (stepIdle L (stateAfter L g x N) (x N)).1 := by
        rw [stateAfter, step_idle htrx]
      have hsty : stateAfter L g y (N + 1)
          = (stepIdle L (stateAfter L g y N) (y N)).1 := by
        rw [stateAfter, step_idle htry]
      refine ⟨?_, ?_, ?_⟩
      · intro p
        rw [hstm, hstx, hsty, stepIdle_inputAccum, stepIdle_inputAccum,
          stepIdle_inputAccum, hiwpm, hiwpx, hiwpy]
        by_cases hp : p = N % L
        · subst hp
          rw [upd_same, upd_same, upd_same]
        · rw [upd_other _ _ hp, upd_other _ _ hp, upd_other _ _ hp]
          exact ihia p
      · intro p
        rw [hstm, hstx, hsty, stepIdle_outputAccum, stepIdle_outputAccum,
          stepIdle_outputAccum]
        exact ihoa p
      · intro q
        rw [hstm, hstx, hsty, stepIdle_latencyDelay, stepIdle_latencyDelay,
          stepIdle_latencyDelay]
        exact ihld q

/-- Output linearity of the engine over exact field arithmetic. -/
lemma outLin (L : ℕ) (g : ℕ → K) (hL : 0 < L / 2) (a b : K) (x y : ℕ → K)
    (N : ℕ) :
    outAt L g (fun n => a * x n + b * y n) N
      = a * outAt L g x N + b * outAt L g y N := by
  have hdrpm := (posInv L g (fun n => a * x n + b * y n) hL N).2.2.2.2.1
  have hdrpx := (posInv L g x hL N).2.2.2.2.1
  have hdrpy := (posInv L g y hL N).2.2.2.2.1
  rw [outAt, outAt, outAt, step_out_eq, step_out_eq, step_out_eq,
    show (step L g (stateAfter L g (fun n => a * x n + b * y n) N)
        ((fun n => a * x n + b * y n) N)).1
      = stateAfter L g (fun n => a * x n + b * y n) (N + 1) from rfl,
    show (step L g (stateAfter L g x N) (x N)).1
      = stateAfter L g x (N + 1) from rfl,
    show (step L g (stateAfter L g y N) (y N)).1
      = stateAfter L g y (N + 1) from rfl,
    hdrpm, hdrpx, hdrpy]
  exact (stateLin L g hL a b x y (N + 1)).2.2 _

end Linearity

section Claims

/-- Claim C1, counterexample: with `filter_length = 2` (hop 1), the
centered-impulse IR and the input stream `1, 0`, the claim demands
`output[1] = input[0] = 1` (since `1 ≥ filter_length / 2 = 1`), but the
engine emits `output[1] = 0`: the engine's delay is not
`filter_length / 2`. -/
theorem C1_counterexample :
    (process_overlap_add [(1 : ℚ), 0] (flatIRTime 2) 2).getD 1 0
      ≠ [(1 : ℚ), 0].getD 0 0 := by
  norm_num [process_overlap_add, runList, step, stepRun, stepIdle, stepOa1, drainLoop,
    olaAdd, cconv, fftBuf, flatIRTime, upd, initState, Finset.sum_range_succ]

/-- Claim C1, amended: with the IR set to a single unit impulse centered at
index `filter_length / 2` (pure pass-through), for every input stream the
engine's output satisfies `output[i] = input[i - 3 * filter_length / 2]`
exactly, for every index `i ≥ 3 * filter_length / 2` (writing
`filter_length = 2 * h`): the pass-through delay is three half-lengths, not
one. -/
theorem C1_amended {K : Type*} [Field K] (h2 : (2 : K) ≠ 0) (h : ℕ)
    (hpos : 0 < h) (input : ℕ → K) (i : ℕ) (hi : 3 * h ≤ i) :
    outAt (2 * h) (flatIRTime (2 * h)) input i = input (i - 3 * h) := by
  rw [deltaOutClosed h2 hpos input i, if_pos hi]

/-- Witness for the amended claim C1 at `h = 1`, `i = 3`, the identity input
stream over `ℚ`. -/
theorem C1_amended_witness :
    (2 : ℚ) ≠ 0 ∧ 0 < 1 ∧ 3 * 1 ≤ 3 ∧
    outAt (2 * 1) (flatIRTime (2 * 1)) (fun n => (n : ℚ)) 3
      = ((3 - 3 * 1 : ℕ) : ℚ) :=
  ⟨by decide, by decide, by decide,
    C1_amended (by decide) 1 (by decide) (fun n => (n : ℚ)) 3 (by decide)⟩

/-- Claim C2, counterexample: in the concrete scenario
`filter_length = 4096` with the centered unit-impulse IR and the 1 kHz sine
input at 44100 Hz, every output sample up to index 2048 is exactly zero, so
non-zero output does not begin by sample index 2048 as the claim states. -/
theorem C2_counterexample :
    List.ofFn (fun i : Fin 2049 =>
      outAt 4096 (flatIRTime 4096)
        (fun n => Real.sin (2 * Real.pi * 1000 * n / 44100)) i.1)
      = List.replicate 2049 (0 : ℝ) := by
  rw [List.eq_replicate_iff]
  refine ⟨by rw [List.length_ofFn], ?_⟩
  intro b hb
  rw [List.mem_ofFn] at hb
  obtain ⟨i, rfl⟩ := hb
  show outAt 4096 (flatIRTime 4096)
    (fun n => Real.sin (2 * Real.pi * 1000 * n / 44100)) i.1 = 0
  have hrw : (4096 : ℕ) = 2 * 2048 := by norm_num
  have hni : ¬ 3 * 2048 ≤ i.1 := by
    have := i.isLt
    omega
  rw [hrw, deltaOutClosed two_ne_zero (by norm_num) _ i.1, if_neg hni]

/-- Claim C2, amended: with `filter_length = 4096` and the centered
unit-impulse IR, for every input stream the first output sample carrying
audio emerges exactly `3 * filter_length / 2 = 6144` samples after the
first input sample: `output[i] = 0` for `i < 6144` and
`output[i] = input[i - 6144]` for `i ≥ 6144`. -/
theorem C2_amended {K : Type*} [Field K] (h2 : (2 : K) ≠ 0) (input : ℕ → K)
    (i : ℕ) :
    (i < 6144 → outAt 4096 (flatIRTime 4096) input i = 0) ∧
    (6144 ≤ i → outAt 4096 (flatIRTime 4096) input i = input (i - 6144)) := by
  have hrw : (4096 : ℕ) = 2 * 2048 := by norm_num
  constructor
  · intro hi
    rw [hrw, deltaOutClosed h2 (by norm_num) input i, if_neg (by omega)]
  · intro hi
    rw [hrw, deltaOutClosed h2 (by norm_num) input i, if_pos (by omega)]

/-- Witness for the amended claim C2 at `i = 6144` with a constant input
stream over `ℚ`. -/
theorem C2_amended_witness :
    (2 : ℚ) ≠ 0 ∧ 6144 ≤ 6144 ∧
    outAt 4096 (flatIRTime 4096) (fun _ => (5 : ℚ)) 6144
      = (fun _ => (5 : ℚ)) (6144 - 6144) :=
  ⟨by decide, by decide,
    (C2_amended (by decide) (fun _ => (5 : ℚ)) 6144).2 (by decide)⟩

/-- Claim C3: removing the drain-time division by 2 produces output that is
exactly twice the unmodified engine's output, sample for sample, for every
input stream and IR (in particular in steady state, a +6 dB gain change). -/
theorem C3_noDivDoubles {K : Type*} [Field K] (h2 : (2 : K) ≠ 0) (L : ℕ)
    (g input : ℕ → K) (N : ℕ) :
    outNDAt L g input N = 2 * outAt L g input N :=
  outND_double h2 L g input N

/-- Witness for claim C3 at `L = 2`, sample 5, the identity input over `ℚ`. -/
theorem C3_witness :
    (2 : ℚ) ≠ 0 ∧
    outNDAt 2 (flatIRTime 2) (fun n => (n : ℚ)) 5
      = 2 * outAt 2 (flatIRTime 2) (fun n => (n : ℚ)) 5 :=
  ⟨by decide, C3_noDivDoubles (by decide) 2 (flatIRTime 2) (fun n => (n : ℚ)) 5⟩

/-- Claim C4: at every instant between processing steps, every non-zero
entry of the `2 * fft_size` overlap-add accumulator lies in the unconsumed
tail of the most recent convolution outputs, i.e. within
`fft_size - hop = 2 * L - L / 2` slots ahead of the output read cursor (the
union of the two most recent blocks' unconsumed tails); all drained regions
behind the cursor are zero, so no stale energy outlives its drain. -/
theorem C4_accumSupport {K : Type*} [Field K] (L : ℕ) (g input : ℕ → K)
    (hL : 0 < L / 2) (N p : ℕ)
    (hp : (stateAfter L g input N).outputAccum p ≠ 0) :
    p < 2 * (2 * L) ∧ ∃ j, j < 2 * L - L / 2 ∧
      p = ((stateAfter L g input N).outputReadPos + j) % (2 * (2 * L)) := by
  obtain ⟨h1, j, hj, hpe⟩ := oaSupportInv L g input hL N p hp
  refine ⟨h1, j, hj, ?_⟩
  rw [(posInv L g input hL N).2.2.1, Nat.mod_add_mod]
  exact hpe

/-- Witness for claim C4 at `L = 2` after two samples of an impulse input:
slot 2 of the accumulator is non-zero and lies in the pending window. -/
theorem C4_witness :
    (0 < 2 / 2 ∧
      (stateAfter (K := ℚ) 2 (flatIRTime 2) (fun n => if n = 0 then 1 else 0)
        2).outputAccum 2 ≠ 0) ∧
    (2 < 2 * (2 * 2) ∧ ∃ j, j < 2 * 2 - 2 / 2 ∧
      2 = ((stateAfter (K := ℚ) 2 (flatIRTime 2) (fun n => if n = 0 then 1 else 0)
        2).outputReadPos + j) % (2 * (2 * 2))) :=
  ⟨⟨by decide, by
      norm_num [stateAfter, step, stepRun, stepIdle, stepOa1, drainLoop, olaAdd,
        cconv, fftBuf, flatIRTime, upd, initState, Finset.sum_range_succ]⟩,
    C4_accumSupport 2 (flatIRTime 2) (fun n => if n = 0 then 1 else 0)
      (by decide) 2 2 (by
      norm_num [stateAfter, step, stepRun, stepIdle, stepOa1, drainLoop, olaAdd,
        cconv, fftBuf, flatIRTime, upd, initState, Finset.sum_range_succ])⟩

/-- Claim C5: every hop-sample region drained at a block boundary is zeroed
immediately (its samples, divided by 2, having been written to the delay
line), and each such slot remains zero in every later state until a
subsequent block's overlap-add write covers it again. -/
theorem C5_drainClears {K : Type*} [Field K] (L : ℕ) (g input : ℕ → K)
    (hL : 0 < L / 2) (M j : ℕ) (hM : (M + 1) % (L / 2) = 0) (hj : j < L / 2) :
    ((stateAfter L g input (M + 1)).outputAccum
        ((M / (L / 2) * (L / 2) + j) % (2 * (2 * L))) = 0) ∧
    ((stateAfter L g input (M + 1)).latencyDelay
        ((L / 2 + M / (L / 2) * (L / 2) + j) % (2 * (2 * L)))
      = stepOa1 L g (stateAfter L g input M) (input M)
          ((M / (L / 2) * (L / 2) + j) % (2 * (2 * L))) / 2) ∧
    (∀ N, M ≤ N →
      (∀ u, M / (L / 2) < u → u < (N + 1) / (L / 2) → ∀ j', j' < 2 * L →
        (u * (L / 2) + j') % (2 * (2 * L))
          ≠ (M / (L / 2) * (L / 2) + j) % (2 * (2 * L))) →
      (stateAfter L g input (N + 1)).outputAccum
        ((M / (L / 2) * (L / 2) + j) % (2 * (2 * L))) = 0) := by
  have htr := (trigger_iff L g input hL M).mpr hM
  have horp := (posInv L g input hL M).2.2.1
  have hdwp := (posInv L g input hL M).2.2.2.1
  have hD : 0 < 2 * (2 * L) := by omega
  have hstep : stateAfter L g input (M + 1)
      = (stepRun L g (stateAfter L g input M) (input M)).1 := by
    rw [stateAfter, step_run htr]
  refine ⟨?_, ?_, ?_⟩
  · rw [hstep, stepRun_outputAccum, horp, hdwp]
    have hpe : (M / (L / 2) * (L / 2) % (2 * (2 * L)) + j) % (2 * (2 * L))
        = (M / (L / 2) * (L / 2) + j) % (2 * (2 * L)) := Nat.mod_add_mod _ _ _
    rw [← hpe]
    exact drainLoop_oa_in hD (by omega) hj
  · rw [hstep, stepRun_latencyDelay, horp, hdwp]
    have hpe1 : ((L / 2 + M / (L / 2) * (L / 2)) % (2 * (2 * L)) + j) % (2 * (2 * L))
        = (L / 2 + M / (L / 2) * (L / 2) + j) % (2 * (2 * L)) := Nat.mod_add_mod _ _ _
    rw [← hpe1, drainLoop_ld_in hD (Nat.mod_lt _ hD) (by omega) hj, Nat.mod_add_mod]
  · intro N hN hno
    by_cases hz : (stateAfter L g input (N + 1)).outputAccum
        ((M / (L / 2) * (L / 2) + j) % (2 * (2 * L))) = 0
    · exact hz
    · exfalso
      obtain ⟨hpD, j'', hj'', hpe⟩ := oaSupportInv L g input hL (N + 1) _ hz
      have hdivM : (M + 1) / (L / 2) = M / (L / 2) + 1 := succ_div_of_mod_eq hM
      have htK : M / (L / 2) + 1 ≤ (N + 1) / (L / 2) := by
        rw [← hdivM]
        exact Nat.div_le_div_right (by omega)
      have hKpos : 0 < (N + 1) / (L / 2) := Nat.lt_of_lt_of_le (Nat.succ_pos _) htK
      obtain ⟨u, hu⟩ : ∃ u, (N + 1) / (L / 2) = u + 1 :=
        ⟨(N + 1) / (L / 2) - 1, (Nat.succ_pred_eq_of_pos hKpos).symm⟩
      rw [hu] at hpe htK
      have he2 : (u + 1) * (L / 2) + j'' = u * (L / 2) + (L / 2 + j'') := by ring
      rw [he2] at hpe
      by_cases hlast : u = M / (L / 2)
      · subst hlast
        have hinj := mod_add_inj (A := M / (L / 2) * (L / 2)) hD
          (show j < 2 * (2 * L) by omega)
          (show L / 2 + j'' < 2 * (2 * L) by omega) hpe
        omega
      · exact hno u (by omega) (by omega) (L / 2 + j'') (by omega) hpe.symm

/-- Witness for claim C5 at `L = 2`, the trigger during sample `M = 0`,
drained offset `j = 0`, applied through sample `N = 0` (no intervening
writes). -/
theorem C5_witness :
    (0 < 2 / 2 ∧ (0 + 1) % (2 / 2) = 0 ∧ 0 < 2 / 2 ∧ 0 ≤ 0) ∧
    (stateAfter (K := ℚ) 2 (flatIRTime 2) (fun _ => 1) (0 + 1)).outputAccum
      ((0 / (2 / 2) * (2 / 2) + 0) % (2 * (2 * 2))) = 0 :=
  ⟨⟨by decide, by decide, by decide, by decide⟩,
    (C5_drainClears 2 (flatIRTime 2) (fun _ => 1) (by decide) 0 0 (by decide)
      (by decide)).2.2 0 (by decide) (fun u hu1 hu2 => by omega)⟩

/-- Claim C6: the FFT-block branch executes exactly once per
`hop = filter_length / 2` newly pushed samples: after `N` processed samples
exactly `N / (filter_length / 2)` blocks have run. -/
theorem C6_blockCount {K : Type*} [Field K] (L : ℕ) (g input : ℕ → K)
    (hL : 0 < L / 2) (N : ℕ) :
    (stateAfter L g input N).blocksDone = N / (L / 2) :=
  (posInv L g input hL N).2.2.2.2.2

/-- Witness for claim C6 at `L = 2` after five samples. -/
theorem C6_witness :
    0 < 2 / 2 ∧
    (stateAfter (K := ℚ) 2 (flatIRTime 2) (fun _ => 0) 5).blocksDone = 5 / (2 / 2) :=
  ⟨by decide, C6_blockCount 2 (flatIRTime 2) (fun _ => 0) (by decide) 5⟩

/-- Claim C7: processing is deterministic and reset is idempotent: two runs
of the engine from the freshly configured state on pointwise-identical
input streams produce identical output samples. -/
theorem C7_deterministic {K : Type*} [Field K] (L : ℕ) (g : ℕ → K)
    (x y : ℕ → K) (N : ℕ) (hxy : ∀ i, i ≤ N → x i = y i) :
    outAt L g x N = outAt L g y N :=
  outCausal L g x y N hxy

/-- Witness for claim C7: two input streams agreeing on samples `0..3`
yield the same output sample 3. -/
theorem C7_witness :
    outAt (K := ℚ) 2 (flatIRTime 2) (fun i => if i ≤ 10 then 1 else 2) 3
      = outAt (K := ℚ) 2 (flatIRTime 2) (fun i => if i ≤ 10 then 1 else 3) 3 :=
  C7_deterministic 2 (flatIRTime 2) _ _ 3
    (fun i hi => by rw [if_pos (by omega), if_pos (by omega)])

/-- Claim C8 (spec-modelled, see `buildIR`): a non-power-of-two filter
length, or IR taps longer than the filter length, make configuration fail
with a fatal error before any spectrum is published, and a valid
configuration publishes a spectrum; the sample-processing path (`outAt`) is
a total function with no error channel, so no configuration error can
surface mid-stream. -/
theorem C8_configRejects {K : Type*} [Field K] (L : ℕ) (taps : List K) :
    ((¬ ∃ k, L = 2 ^ k) ∨ L < taps.length →
      ∃ e, buildIR L taps = Except.error e) ∧
    ((∃ k, L = 2 ^ k) ∧ taps.length ≤ L →
      ∃ spec, buildIR L taps = Except.ok spec) :=
  ⟨buildIR_error L taps, buildIR_ok L taps⟩

/-- Claim C9: for every input stream and every IR, the first
`hop = filter_length / 2` output samples are exactly zero: the delay-line
read cursor traverses the pre-seeded zero region `[0, latency)`. -/
theorem C9_initialSilence {K : Type*} [Field K] (L : ℕ) (g input : ℕ → K)
    (hL : 0 < L / 2) (i : ℕ) (hi : i < L / 2) :
    outAt L g input i = 0 :=
  firstOutZero L g input hL hi

/-- Witness for claim C9 at `L = 4`, output sample 1. -/
theorem C9_witness :
    (0 < 4 / 2 ∧ 1 < 4 / 2) ∧
    outAt (K := ℚ) 4 (flatIRTime 4) (fun n => (n : ℚ) + 1) 1 = 0 :=
  ⟨⟨by decide, by decide⟩,
    C9_initialSilence 4 (flatIRTime 4) (fun n => (n : ℚ) + 1) (by decide) 1 (by decide)⟩

/-- Claim C10: the engine is linear in its input signal over exact field
arithmetic: for every fixed IR and filter length, scalars `a, b` and input
streams `x, y`, processing `a * x + b * y` gives `a * (output of x) +
b * (output of y)` sample by sample. -/
theorem C10_linearity {K : Type*} [Field K] (L : ℕ) (g : ℕ → K)
    (hL : 0 < L / 2) (a b : K) (x y : ℕ → K) (N : ℕ) :
    outAt L g (fun n => a * x n + b * y n) N
      = a * outAt L g x N + b * outAt L g y N :=
  outLin L g hL a b x y N

/-- Witness for claim C10 at `L = 2`, `a = 2`, `b = 3`, sample 4. -/
theorem C10_witness :
    0 < 2 / 2 ∧
    outAt (K := ℚ) 2 (flatIRTime 2) (fun n => 2 * (1 : ℚ) + 3 * (n : ℚ)) 4
      = 2 * outAt (K := ℚ) 2 (flatIRTime 2) (fun _ => 1) 4
        + 3 * outAt (K := ℚ) 2 (flatIRTime 2) (fun n => (n : ℚ)) 4 :=
  ⟨by decide,
    C10_linearity 2 (flatIRTime 2) (by decide) 2 3 (fun _ => 1) (fun n => (n : ℚ)) 4⟩

end Claims

end MultiQ
